import Mathlib

/-!
A shallow embedding of the text-normalization pipeline in
`src/backend/preprocessing.py` together with proofs about it.

Strings are modelled as `List Char`.  The Python regular-expression
substitutions used by the module are modelled by a generic left-to-right
scanner (`subScanF` below) instantiated with one matcher per pattern; each
matcher recognizes, at the head of the remaining text, exactly the prefixes
its regex can match there (all the patterns in the source are simple enough
to admit such a direct description).  Case mapping (`str.lower`,
`re.IGNORECASE`) is modelled on the ASCII range via `Char.toLower`, which
maps `A`-`Z` to `a`-`z` and fixes every other character; the character
class `\s` / `str.strip` / `str.split` whitespace is modelled by the
Unicode white-space code points Python uses.  Dynamically-typed call sites
are modelled by a small value type `PyVal`, with fallible functions
returning `Except PyError`.
-/

/-- ASCII uppercase letter: the `A-Z` part of the regex class `[a-zA-Z]`. -/
def isUpperAZ (c : Char) : Bool := 65 ≤ c.toNat && c.toNat ≤ 90

/-- ASCII lowercase letter: the `a-z` part of the regex class `[a-zA-Z]`. -/
def isLowerAZ (c : Char) : Bool := 97 ≤ c.toNat && c.toNat ≤ 122

/-- The regex class `[a-zA-Z]`. -/
def isAZ (c : Char) : Bool := isUpperAZ c || isLowerAZ c

/-- The code points matched by `\s` (and stripped by `str.strip()` and split
on by `str.split()`) for Python 3 `str` patterns: tab, newline, vertical
tab, form feed, carriage return, space, the separators 28-31, next line,
no-break space, and the Unicode space separators. -/
def isPySpace (c : Char) : Bool :=
  c.toNat = 32 || c.toNat = 9 || c.toNat = 10 || c.toNat = 11 || c.toNat = 12 || c.toNat = 13 ||
  c.toNat = 28 || c.toNat = 29 || c.toNat = 30 || c.toNat = 31 || c.toNat = 133 ||
  c.toNat = 160 || c.toNat = 5760 || (8192 ≤ c.toNat && c.toNat ≤ 8202) || c.toNat = 8232 ||
  c.toNat = 8233 || c.toNat = 8239 || c.toNat = 8287 || c.toNat = 12288

/-- The regex class `\w` on the ASCII range: letters, digits, underscore
(used only for the `\b` word boundaries of the leakage-word patterns). -/
def isWordChar (c : Char) : Bool :=
  isAZ c || (48 ≤ c.toNat && c.toNat ≤ 57) || c.toNat = 95

/-- One generic pass of `re.sub(pattern, repl, text)`: scan left to right;
`tm prev rest = some n` means the pattern matches the length-`(n+1)` prefix
of `rest` (`prev` is the character immediately before `rest` in the text,
needed only for `\b`); on a match, emit `r` and resume after the match, as
`re.sub` does; otherwise keep one character and move on.  The `Nat`
argument is fuel; since every match consumes at least one character,
`t.length` fuel always suffices (`pySubP` below). -/
def subScanF (tm : Option Char → List Char → Option Nat) (r : List Char) :
    Nat → Option Char → List Char → List Char
  | 0, _, _ => []
  | _ + 1, _, [] => []
  | fuel + 1, prev, c :: cs =>
    match tm prev (c :: cs) with
    | some n => r ++ subScanF tm r fuel (((c :: cs).take (n + 1)).getLast?) (cs.drop n)
    | none => c :: subScanF tm r fuel (some c) cs

/-- `re.sub` with an explicit previous-character state. -/
def pySubP (tm : Option Char → List Char → Option Nat) (r : List Char)
    (p : Option Char) (t : List Char) : List Char :=
  subScanF tm r t.length p t

/-- `re.sub(pattern, repl, text)` on a whole text. -/
def pySub (tm : Option Char → List Char → Option Nat) (r : List Char)
    (t : List Char) : List Char :=
  pySubP tm r none t

/-- The single-space replacement text used by `basic_clean`. -/
def spaceRepl : List Char := [' ']

/-- What the greedy `\S+` consumes: the leading run of non-whitespace. -/
def nonSpaceLen (cs : List Char) : Nat :=
  (cs.takeWhile (fun c => !isPySpace c)).length

/-- The characters of the literal `http`. -/
def httpChars : List Char := "http".toList

/-- The characters of the literal `www`. -/
def wwwChars : List Char := "www".toList

/-- Matcher for `http\S+|www\S+|https\S+`: at a given position the
alternation matches iff the text starts with `http` (which subsumes the
`https` branch) or `www` followed by at least one non-space character, and
the greedy `\S+` then extends to the end of the non-space run. -/
def urlMatcher (_ : Option Char) (cs : List Char) : Option Nat :=
  if cs.take 4 = httpChars ∧ 1 ≤ nonSpaceLen (cs.drop 4) then
    some (3 + nonSpaceLen (cs.drop 4))
  else if cs.take 3 = wwwChars ∧ 1 ≤ nonSpaceLen (cs.drop 3) then
    some (2 + nonSpaceLen (cs.drop 3))
  else none

/-- Offset of the first `>` in the list, failing at the first newline
(`.` does not match `\n`): the lazy `.*?>` of the HTML-tag pattern. -/
def htmlEndIdx : List Char → Option Nat
  | [] => none
  | c :: cs =>
    if c = '>' then some 0
    else if c = '\n' then none
    else (htmlEndIdx cs).map (· + 1)

/-- Matcher for `<.*?>`. -/
def htmlMatcher (_ : Option Char) : List Char → Option Nat
  | [] => none
  | c :: cs => if c = '<' then (htmlEndIdx cs).map (· + 1) else none

/-- Matcher for `[^a-zA-Z\s]`: a single character neither letter nor whitespace. -/
def nonAlphaMatcher (_ : Option Char) : List Char → Option Nat
  | [] => none
  | c :: _ => if isAZ c || isPySpace c then none else some 0

/-- Length of the leading whitespace run. -/
def spaceLen (cs : List Char) : Nat := (cs.takeWhile isPySpace).length

/-- Matcher for `\s+` (greedy). -/
def wsMatcher (_ : Option Char) : List Char → Option Nat
  | [] => none
  | c :: cs => if isPySpace c then some (spaceLen cs) else none

/-- Python `str.strip()`: drop leading and trailing whitespace. -/
def stripPy (t : List Char) : List Char :=
  ((t.dropWhile isPySpace).reverse.dropWhile isPySpace).reverse

/-- `basic_clean` of `src/backend/preprocessing.py` on an actual string:
lowercase, drop URLs, drop HTML tags, blank every character that is not a
letter or whitespace, collapse whitespace runs to single spaces and strip.
Every substitution uses the single-space replacement. -/
def basic_clean (s : List Char) : List Char :=
  stripPy (pySub wsMatcher spaceRepl
    (pySub nonAlphaMatcher spaceRepl
      (pySub htmlMatcher spaceRepl
        (pySub urlMatcher spaceRepl (s.map Char.toLower)))))

/-- Helper for `str.split()`: split at every whitespace character, keeping
empty pieces (they are filtered away by `pySplit`). -/
def splitSp : List Char → List (List Char)
  | [] => [[]]
  | c :: cs =>
    if isPySpace c then [] :: splitSp cs
    else
      match splitSp cs with
      | [] => [[c]]
      | w :: ws => (c :: w) :: ws

/-- Python `str.split()` with no argument: whitespace-delimited words,
empty pieces discarded. -/
def pySplit (t : List Char) : List (List Char) :=
  (splitSp t).filter (fun w => !w.isEmpty)

/-- Python `" ".join(ws)`. -/
def joinSp (ws : List (List Char)) : List Char := List.intercalate spaceRepl ws

/-- `remove_stopwords`: split on whitespace, drop the words that are in the
stopword set `S`, rejoin with single spaces.  The stopword set (loaded by
the source from the external NLTK resource at startup) is a parameter. -/
def remove_stopwords (S : List (List Char)) (s : List Char) : List Char :=
  if s.isEmpty then [] else joinSp ((pySplit s).filter (fun w => decide (w ∉ S)))

/-- Case-insensitive match of the literal pattern `p` (given lowercase, as
all patterns in the source are) against a prefix of the text: `re.IGNORECASE`
on the ASCII range compares the lowercased text character with the pattern
character. -/
def ciLit : List Char → List Char → Bool
  | [], _ => true
  | _ :: _, [] => false
  | p :: ps, c :: cs => (Char.toLower c == p) && ciLit ps cs

/-- Whether the character before the current position is a word character
(`none` = start of text): decides `\b` before a pattern starting with `\w`. -/
def wordBefore : Option Char → Bool
  | none => false
  | some c => isWordChar c

/-- Decides `\b` after a pattern ending with `\w`: end of text or a
non-word character next. -/
def boundaryAfter : List Char → Bool
  | [] => true
  | c :: _ => !isWordChar c

/-- Matcher for `\b{word}\b` with `re.IGNORECASE` (the word is a nonempty
lowercase literal, possibly containing single spaces). -/
def leakMatcher (w : List Char) (prev : Option Char) (cs : List Char) : Option Nat :=
  if wordBefore prev then none
  else if ciLit w cs && boundaryAfter (cs.drop w.length) then some (w.length - 1)
  else none

/-- The literal `(reuters)` of the citation pattern. -/
def reutersParen : List Char := "(reuters)".toList

/-- The literal `(ap)` of the citation pattern. -/
def apParen : List Char := "(ap)".toList

/-- For `^.*?\((reuters|ap)\)`: offset just past the closing parenthesis of
the first occurrence of `(reuters)` or `(ap)` (case-insensitive), failing
at the first newline, which the lazy `.*?` cannot cross. -/
def parenCand : List Char → Option Nat
  | [] => none
  | c :: cs =>
    if ciLit reutersParen (c :: cs) then some 9
    else if ciLit apParen (c :: cs) then some 4
    else if c = '\n' then none
    else (parenCand cs).map (· + 1)

/-- For the trailing `.*?-`: offset of the first `-`, failing at the first
newline. -/
def findDash : List Char → Option Nat
  | [] => none
  | c :: cs =>
    if c = '-' then some 0
    else if c = '\n' then none
    else (findDash cs).map (· + 1)

/-- `re.sub(r'^.*?\((reuters|ap)\).*?-', '', text, flags=re.IGNORECASE)`:
the pattern is anchored, so at most the one leftmost-lazy match at the
start of the text is removed. -/
def citationStrip (t : List Char) : List Char :=
  match parenCand t with
  | none => t
  | some j =>
    match findDash (t.drop j) with
    | none => t
    | some k => t.drop (j + k + 1)

/-- The hard-coded leakage phrase list, in source order. -/
def leakage_words : List (List Char) :=
  [r"reuters", r"washington reuters", r"getty", r"getty images", r"image",
   r"featured image", r"featured", r"twitter", r"twitter com", r"breitbart",
   r"pic twitter", r"said", r"mr", r"ms"].map String.toList

/-- One iteration of the leakage loop: `re.sub(fr'\b{word}\b', '', text, flags=re.IGNORECASE)`. -/
def leakPass (t w : List Char) : List Char := pySub (leakMatcher w) [] t

/-- `remove_leakage_words`: strip the leading citation clause, remove each
leakage phrase as whole words in order, then collapse whitespace and strip. -/
def remove_leakage_words (s : List Char) : List Char :=
  if s.isEmpty then [] else
    stripPy (pySub wsMatcher spaceRepl (leakage_words.foldl leakPass (citationStrip s)))

/-- `preprocess_text` on an actual string: basic cleaning, stopword
removal, leakage-word removal, with the falsy guard. -/
def preprocess_text (S : List (List Char)) (s : List Char) : List Char :=
  if s.isEmpty then [] else remove_leakage_words (remove_stopwords S (basic_clean s))

/-- A Python value as seen by the dynamically-typed callers: a string, an
integer, `None`, or a list. -/
inductive PyVal where
  | vstr : List Char → PyVal
  | vint : Int → PyVal
  | vnone : PyVal
  | vlist : List PyVal → PyVal

/-- Python truthiness for the modelled values. -/
def truthy : PyVal → Bool
  | .vstr s => !s.isEmpty
  | .vint n => decide (n ≠ 0)
  | .vnone => false
  | .vlist l => !l.isEmpty

/-- The exceptions the module can actually raise. -/
inductive PyError where
  | attributeError
  | typeError
deriving DecidableEq

/-- `basic_clean` as called: the `isinstance` guard maps any non-string to
the empty string; no exception is possible. -/
def basic_clean_py (v : PyVal) : List Char :=
  match v with
  | .vstr s => basic_clean s
  | _ => []

/-- `remove_stopwords` as called: only the falsy guard protects it, so a
truthy non-string reaches `text.split()` and raises `AttributeError`. -/
def remove_stopwords_py (S : List (List Char)) (v : PyVal) : Except PyError (List Char) :=
  if truthy v then
    match v with
    | .vstr s => .ok (remove_stopwords S s)
    | _ => .error .attributeError
  else .ok []

/-- `remove_leakage_words` as called: only the falsy guard protects it, so
a truthy non-string reaches `re.sub` and raises `TypeError`. -/
def remove_leakage_words_py (v : PyVal) : Except PyError (List Char) :=
  if truthy v then
    match v with
    | .vstr s => .ok (remove_leakage_words s)
    | _ => .error .typeError
  else .ok []

/-- `preprocess_text` as called: the combined falsy/`isinstance` guard
makes it total. -/
def preprocess_text_py (S : List (List Char)) (v : PyVal) : List Char :=
  match v with
  | .vstr s => preprocess_text S s
  | _ => []

/-- Coercion used by `combine_title_content`: non-strings become `""`. -/
def strOrEmpty (v : PyVal) : List Char :=
  match v with
  | .vstr s => s
  | _ => []

/-- `combine_title_content`: coerce both arguments, interpolate with a
single space, strip the ends. -/
def combine_title_content (title content : PyVal) : List Char :=
  stripPy (strOrEmpty title ++ spaceRepl ++ strOrEmpty content)

/-- `preprocess_batch`: falsy input gives `[]`; a list is mapped
element-wise; a (truthy) string is iterated character by character (Python
strings are iterable); any other truthy value is not iterable and raises
`TypeError`. -/
def preprocess_batch (S : List (List Char)) (v : PyVal) : Except PyError (List (List Char)) :=
  if truthy v then
    match v with
    | .vlist l => .ok (l.map (preprocess_text_py S))
    | .vstr s => .ok (s.map (fun c => preprocess_text_py S (.vstr [c])))
    | _ => .error .typeError
  else .ok []

/-- `validate_input_text`: falsy or non-string gives `False`; otherwise
`True` iff the stripped length is at least `min_length`. -/
def validate_input_text (v : PyVal) (min_length : Int) : Bool :=
  if truthy v then
    match v with
    | .vstr s => decide (min_length ≤ Int.ofNat (stripPy s).length)
    | _ => false
  else false

/-! ### Character-level lemmas -/

/-! ### Further definitions: derived pipeline stages, predicates on the
output shape, concrete spec inputs, and the comparison pipeline -/

/-- The text after lowercasing and URL removal. -/
def cleanStage2 (s : List Char) : List Char :=
  pySub urlMatcher spaceRepl (s.map Char.toLower)

/-- The text after lowercasing, URL removal and HTML-tag removal. -/
def cleanStage3 (s : List Char) : List Char :=
  pySub htmlMatcher spaceRepl (cleanStage2 s)

/-- The text after all of `basic_clean` except the final whitespace
collapsing and stripping. -/
def cleanStage4 (s : List Char) : List Char :=
  pySub nonAlphaMatcher spaceRepl (cleanStage3 s)

/-- The character-set/shape guarantee of the spec: the text is exactly a
single-space join of its own nonempty lowercase-letter words (so: empty, or
lowercase words separated by single spaces with no leading or trailing
whitespace). -/
def isNormalized (u : List Char) : Bool :=
  decide (u = joinSp (pySplit u)) && (pySplit u).all (fun w => w.all isLowerAZ)

/-- The input of the `basicClean` scenario. -/
def c8_input : List Char := "Visit http://x.com <b>now</b>!!".toList

/-- The expected output of the `basicClean` scenario. -/
def c8_expected : List Char := "visit now".toList

/-- The input of the `preprocess` citation scenario. -/
def c2_input : List Char := "WASHINGTON (Reuters) - The president said today.".toList

/-- `basic_clean` of the citation scenario input. -/
def c2_cleaned : List Char := "washington reuters the president said today".toList

/-- The citation scenario after stopword removal (with `the` a stopword and
the five content words not stopwords). -/
def c2_nostop : List Char := "washington reuters president said today".toList

/-- The final output of the citation scenario. -/
def c2_result : List Char := "washington president today".toList

/-- The too-short validation example. -/
def c6_short : List Char := "short".toList

/-- Twenty-five exclamation marks: long enough to validate, normalized away
entirely by `preprocess`. -/
def c10_input : List Char := List.replicate 25 '!'

/-- `remove_leakage_words` with the leading-citation substitution deleted:
the comparison pipeline of the refinement claim. -/
def remove_leakage_words_nocite (s : List Char) : List Char :=
  if s.isEmpty then [] else
    stripPy (pySub wsMatcher spaceRepl (leakage_words.foldl leakPass s))

/-- `preprocess_text` with the leading-citation substitution deleted. -/
def preprocess_text_nocite (S : List (List Char)) (s : List Char) : List Char :=
  if s.isEmpty then [] else
    remove_leakage_words_nocite (remove_stopwords S (basic_clean s))

/-- The apostrophe character used by the stopword contractions. -/
def apostrophe : Char := Char.ofNat 39

/-- Modelled from the spec: the stopword resource is described only as "an
immutable set of lowercase English tokens, loaded once at process start from
an external linguistic resource" (the source loads NLTK's English stopword
list, data that is not part of the repository).  All pipeline theorems are
parametric in the set; this concrete copy of the NLTK English list is used
to instantiate witnesses. -/
def STOP_WORDS : List (List Char) :=
  ([r"i", r"me", r"my", r"myself", r"we", r"our", r"ours", r"ourselves", r"you",
    r"your", r"yours", r"yourself", r"yourselves", r"he", r"him", r"his",
    r"himself", r"she", r"her", r"hers", r"herself", r"it", r"its", r"itself",
    r"they", r"them", r"their", r"theirs", r"themselves", r"what", r"which",
    r"who", r"whom", r"this", r"that", r"these", r"those", r"am", r"is", r"are",
    r"was", r"were", r"be", r"been", r"being", r"have", r"has", r"had",
    r"having", r"do", r"does", r"did", r"doing", r"a", r"an", r"the", r"and",
    r"but", r"if", r"or", r"because", r"as", r"until", r"while", r"of", r"at",
    r"by", r"for", r"with", r"about", r"against", r"between", r"into",
    r"through", r"during", r"before", r"after", r"above", r"below", r"to",
    r"from", r"up", r"down", r"in", r"out", r"on", r"off", r"over", r"under",
    r"again", r"further", r"then", r"once", r"here", r"there", r"when",
    r"where", r"why", r"how", r"all", r"any", r"both", r"each", r"few",
    r"more", r"most", r"other", r"some", r"such", r"no", r"nor", r"not",
    r"only", r"own", r"same", r"so", r"than", r"too", r"very", r"s", r"t",
    r"can", r"will", r"just", r"don", r"should", r"now", r"d", r"ll", r"m",
    r"o", r"re", r"ve", r"y", r"ain", r"aren", r"couldn", r"didn", r"doesn",
    r"hadn", r"hasn", r"haven", r"isn", r"ma", r"mightn", r"mustn", r"needn",
    r"shan", r"shouldn", r"wasn", r"weren", r"won", r"wouldn"].map
      String.toList) ++
  ([(r"you", r"re"), (r"you", r"ve"), (r"you", r"ll"), (r"you", r"d"),
    (r"she", r"s"), (r"it", r"s"), (r"that", r"ll"), (r"don", r"t"),
    (r"should", r"ve"), (r"aren", r"t"), (r"couldn", r"t"), (r"didn", r"t"),
    (r"doesn", r"t"), (r"hadn", r"t"), (r"hasn", r"t"), (r"haven", r"t"),
    (r"isn", r"t"), (r"mightn", r"t"), (r"mustn", r"t"), (r"needn", r"t"),
    (r"shan", r"t"), (r"shouldn", r"t"), (r"wasn", r"t"), (r"weren", r"t"),
    (r"won", r"t"), (r"wouldn", r"t")].map
      (fun q => q.1.toList ++ apostrophe :: q.2.toList))

/-- The title used in the `combineTitleContent` examples. -/
def c9_a : List Char := "A".toList

/-- The content used in the `combineTitleContent` examples. -/
def c9_b : List Char := "B".toList

/-- The expected combined string. -/
def c9_ab : List Char := "A B".toList

/-- A title with an inner double space, kept verbatim. -/
def c9_inner : List Char := "a  b".toList

/-- Content for the inner-space example. -/
def c9_c : List Char := "c".toList

/-- Expected result of the inner-space example: no inner normalization. -/
def c9_inner_res : List Char := "a  b c".toList

/-- The word `the`. -/
def wThe : List Char := "the".toList

/-- The word `washington`. -/
def wWashington : List Char := "washington".toList

/-- The word `reuters`. -/
def wReuters : List Char := "reuters".toList

/-- The word `president`. -/
def wPresident : List Char := "president".toList

/-- The word `said`. -/
def wSaid : List Char := "said".toList

/-- The word `today`. -/
def wToday : List Char := "today".toList

/-- No suffix of `t` matches the URL alternation. -/
def urlFree (t : List Char) : Prop :=
  ∀ l : List Char, l.IsSuffix t → urlMatcher none l = none

/-- A text of lowercase ASCII letters and spaces only (the shape of the
pipeline text when the leakage passes run). -/
def wordly (t : List Char) : Prop := ∀ c ∈ t, isLowerAZ c = true ∨ c = ' '

/-- The single-word leakage patterns; every pattern of `leakage_words`
contains one of these as a whole word. -/
def badWords : List (List Char) :=
  [r"reuters", r"getty", r"image", r"featured", r"twitter", r"breitbart",
   r"said", r"mr", r"ms"].map String.toList

/-- A well-shaped pattern: starts and ends with a lowercase letter and
consists of lowercase letters and spaces (true of all 14 patterns). -/
def goodPatB (w : List Char) : Bool :=
  (match w.head? with | some c => isLowerAZ c | none => false) &&
  (match w.getLast? with | some c => isLowerAZ c | none => false) &&
  w.all (fun c => isLowerAZ c || c == ' ')

/-- The previous character of the suffix `l` in a decomposition `a ++ l`,
starting from initial state `p`. -/
def prevOf (p : Option Char) (a : List Char) : Option Char :=
  match a.getLast? with
  | none => p
  | some c => some c

/-- The scanner on the remainder after a copied word: the first character
(necessarily a non-letter here) is copied and scanning resumes after it. -/
def skipTail (w : List Char) : List Char → List Char
  | [] => []
  | d :: r => d :: pySubP (leakMatcher w) [] (some d) r

theorem char_eq_of_toNat_eq {a b : Char} (h : a.toNat = b.toNat) : a = b :=
  Char.ext (UInt32.ext h)

theorem toLower_toNat_of_upper {c : Char} (h : isUpperAZ c = true) :
    (Char.toLower c).toNat = c.toNat + 32 := by
  simp only [isUpperAZ, Bool.and_eq_true, decide_eq_true_eq] at h
  have hv : (c.toNat + 32).isValidChar := Or.inl (by omega)
  have h1 : Char.toLower c = Char.ofNat (c.toNat + 32) := by
    unfold Char.toLower
    exact if_pos ⟨h.1, h.2⟩
  rw [h1, Char.ofNat, dif_pos hv]
  simp [Char.ofNatAux, Char.toNat, UInt32.toNat, BitVec.toNat_ofNatLt]

theorem toLower_of_not_upper {c : Char} (h : isUpperAZ c = false) :
    Char.toLower c = c := by
  simp only [isUpperAZ, Bool.and_eq_true, decide_eq_true_eq, Bool.and_eq_false_iff,
    decide_eq_false_iff_not] at h
  have : ¬ (c.toNat ≥ 65 ∧ c.toNat ≤ 90) := by omega
  simp [Char.toLower, this]

theorem isUpperAZ_toLower (c : Char) : isUpperAZ (Char.toLower c) = false := by
  by_cases h : isUpperAZ c = true
  · have := toLower_toNat_of_upper h
    simp only [isUpperAZ, Bool.and_eq_true, decide_eq_true_eq] at h
    simp only [isUpperAZ, this, Bool.and_eq_false_iff, decide_eq_false_iff_not]
    omega
  · rw [toLower_of_not_upper (by revert h; cases isUpperAZ c <;> simp)]
    revert h; cases isUpperAZ c <;> simp

theorem toLower_of_lower {c : Char} (h : isLowerAZ c = true) : Char.toLower c = c := by
  apply toLower_of_not_upper
  simp only [isLowerAZ, Bool.and_eq_true, decide_eq_true_eq] at h
  simp only [isUpperAZ, Bool.and_eq_false_iff, decide_eq_false_iff_not]
  omega

theorem toLower_fix {c d : Char} (hd : isLowerAZ d = false) (h : Char.toLower c = d) :
    c = d := by
  by_cases hu : isUpperAZ c = true
  · exfalso
    have h1 := toLower_toNat_of_upper hu
    rw [h] at h1
    simp only [isUpperAZ, Bool.and_eq_true, decide_eq_true_eq] at hu
    simp only [isLowerAZ, Bool.and_eq_false_iff, decide_eq_false_iff_not] at hd
    omega
  · rw [← h, toLower_of_not_upper (by revert hu; cases isUpperAZ c <;> simp)]

theorem isAZ_of_toLower_lower {c d : Char} (hd : isLowerAZ d = true)
    (h : Char.toLower c = d) : isAZ c = true := by
  by_cases hu : isUpperAZ c = true
  · simp [isAZ, hu]
  · have hc : c = d := by
      rw [← h, toLower_of_not_upper (by revert hu; cases isUpperAZ c <;> simp)]
    simp [isAZ, hc, hd]

theorem not_space_of_lower {c : Char} (h : isLowerAZ c = true) : isPySpace c = false := by
  simp only [isLowerAZ, Bool.and_eq_true, decide_eq_true_eq] at h
  simp only [isPySpace, Bool.or_eq_false_iff, Bool.and_eq_false_iff,
    decide_eq_false_iff_not]
  omega

theorem not_space_of_AZ {c : Char} (h : isAZ c = true) : isPySpace c = false := by
  simp only [isAZ, isUpperAZ, isLowerAZ, Bool.or_eq_true, Bool.and_eq_true,
    decide_eq_true_eq] at h
  simp only [isPySpace, Bool.or_eq_false_iff, Bool.and_eq_false_iff,
    decide_eq_false_iff_not]
  omega

theorem wordChar_of_AZ {c : Char} (h : isAZ c = true) : isWordChar c = true := by
  simp [isWordChar, h]

theorem wordChar_of_lower {c : Char} (h : isLowerAZ c = true) : isWordChar c = true :=
  wordChar_of_AZ (by simp [isAZ, h])

theorem not_wordChar_space {c : Char} (h : isPySpace c = true) : isWordChar c = false := by
  simp only [isPySpace, Bool.or_eq_true, Bool.and_eq_true, decide_eq_true_eq] at h
  simp only [isWordChar, isAZ, isUpperAZ, isLowerAZ, Bool.or_eq_false_iff,
    Bool.and_eq_false_iff, decide_eq_false_iff_not]
  omega

theorem char_space_eq {c : Char} (h : c.toNat = 32) : c = ' ' :=
  char_eq_of_toNat_eq (by rw [h]; rfl)

/-! ### Fuel irrelevance and unfolding equations for the `re.sub` scanner -/

theorem subScanF_fuel (tm : Option Char → List Char → Option Nat) (r : List Char) :
    ∀ (f₁ : Nat) (t : List Char) (f₂ : Nat) (p : Option Char),
      t.length ≤ f₁ → t.length ≤ f₂ →
      subScanF tm r f₁ p t = subScanF tm r f₂ p t := by
  intro f₁
  induction f₁ with
  | zero =>
    intro t f₂ p h1 _
    have : t = [] := List.eq_nil_of_length_eq_zero (Nat.le_zero.mp h1)
    subst this
    cases f₂ <;> rfl
  | succ f ih =>
    intro t f₂ p h1 h2
    cases t with
    | nil => cases f₂ <;> rfl
    | cons c cs =>
      cases f₂ with
      | zero => simp at h2
      | succ g =>
        simp only [List.length_cons, Nat.succ_le_succ_iff] at h1 h2
        simp only [subScanF]
        cases htm : tm p (c :: cs) with
        | some n =>
          simp only []
          congr 1
          exact ih (cs.drop n) g _ (le_trans (List.length_drop n cs ▸ Nat.sub_le _ _) h1)
            (le_trans (List.length_drop n cs ▸ Nat.sub_le _ _) h2)
        | none =>
          simp only []
          congr 1
          exact ih cs g _ h1 h2

theorem pySubP_nil (tm : Option Char → List Char → Option Nat) (r : List Char)
    (p : Option Char) : pySubP tm r p [] = [] := rfl

theorem pySubP_cons_some {tm : Option Char → List Char → Option Nat} {p : Option Char}
    {c : Char} {cs : List Char} {n : Nat} (r : List Char) (h : tm p (c :: cs) = some n) :
    pySubP tm r p (c :: cs) =
      r ++ pySubP tm r (((c :: cs).take (n + 1)).getLast?) (cs.drop n) := by
  unfold pySubP
  simp only [List.length_cons, subScanF, h]
  congr 1
  exact subScanF_fuel tm r cs.length (cs.drop n) (cs.drop n).length _
    (List.length_drop n cs ▸ Nat.sub_le _ _) le_rfl

theorem pySubP_cons_none {tm : Option Char → List Char → Option Nat} {p : Option Char}
    {c : Char} {cs : List Char} (r : List Char) (h : tm p (c :: cs) = none) :
    pySubP tm r p (c :: cs) = c :: pySubP tm r (some c) cs := by
  unfold pySubP
  simp only [List.length_cons, subScanF, h]

/-! ### Small list helpers -/

theorem length_dropWhile_le (p : Char → Bool) (l : List Char) :
    (l.dropWhile p).length ≤ l.length := by
  conv_rhs => rw [← List.takeWhile_append_dropWhile p l]
  rw [List.length_append]
  omega

theorem drop_takeWhile_length (p : Char → Bool) :
    ∀ l : List Char, l.drop (l.takeWhile p).length = l.dropWhile p
  | [] => rfl
  | c :: cs => by
    by_cases h : p c
    · simp [List.takeWhile_cons, List.dropWhile_cons, h, drop_takeWhile_length p cs]
    · simp [List.takeWhile_cons, List.dropWhile_cons, h]

theorem dropWhile_of_all_false {p : Char → Bool} :
    ∀ {l : List Char}, (∀ c ∈ l, p c = false) → l.dropWhile p = l
  | [], _ => rfl
  | c :: cs, h => by
    rw [List.dropWhile_cons, if_neg (by simp [h c (by simp)])]

theorem dropWhile_head_cases (p : Char → Bool) (l : List Char) :
    l.dropWhile p = [] ∨ ∃ d rest, l.dropWhile p = d :: rest ∧ p d = false := by
  induction l with
  | nil => exact Or.inl rfl
  | cons c cs ih =>
    rw [List.dropWhile_cons]
    by_cases h : p c
    · simpa [h] using ih
    · exact Or.inr ⟨c, cs, by simp [h], by simp [h]⟩

/-! ### `splitSp`, `pySplit`, `joinSp` -/

theorem splitSp_ne_nil : ∀ t : List Char, splitSp t ≠ [] := by
  intro t
  cases t with
  | nil => simp [splitSp]
  | cons c cs =>
    unfold splitSp
    by_cases h : isPySpace c
    · simp [h]
    · simp only [h]
      cases hs : splitSp cs <;> simp

theorem splitSp_cons_space {c : Char} (cs : List Char) (h : isPySpace c = true) :
    splitSp (c :: cs) = [] :: splitSp cs := by
  simp [splitSp, h]

theorem splitSp_cons (c : Char) (cs : List Char) :
    splitSp (c :: cs) =
      if isPySpace c then [] :: splitSp cs
      else
        match splitSp cs with
        | [] => [[c]]
        | w :: ws => (c :: w) :: ws := rfl

theorem splitSp_cons_nonspace {c : Char} (cs : List Char) (h : isPySpace c = false) :
    splitSp (c :: cs) = (c :: (splitSp cs).headI) :: (splitSp cs).tail := by
  rw [splitSp_cons, if_neg (by simp [h])]
  cases hs : splitSp cs with
  | nil => exact absurd hs (splitSp_ne_nil cs)
  | cons w ws => simp

theorem splitSp_decomp : ∀ l : List Char,
    splitSp l = (l.takeWhile (fun c => !isPySpace c)) ::
      (splitSp (l.dropWhile (fun c => !isPySpace c))).tail
  | [] => rfl
  | c :: cs => by
    by_cases h : isPySpace c
    · rw [splitSp_cons_space cs h]
      simp [List.takeWhile_cons, List.dropWhile_cons, h, splitSp_cons_space cs h]
    · have h' : isPySpace c = false := by simp [h]
      rw [splitSp_cons_nonspace cs h', splitSp_decomp cs]
      simp [List.takeWhile_cons, List.dropWhile_cons, h]

theorem splitSp_append_space {d : Char} (hd : isPySpace d = true) :
    ∀ a b : List Char, splitSp (a ++ d :: b) = splitSp a ++ splitSp b
  | [], b => by
    rw [List.nil_append, splitSp_cons_space b hd]
    rfl
  | c :: a', b => by
    by_cases h : isPySpace c
    · rw [List.cons_append, splitSp_cons_space _ h, splitSp_cons_space a' h,
        splitSp_append_space hd a' b]
      rfl
    · have h' : isPySpace c = false := by simp [h]
      rw [List.cons_append, splitSp_cons_nonspace _ h', splitSp_cons_nonspace a' h',
        splitSp_append_space hd a' b]
      cases hs : splitSp a' with
      | nil => exact absurd hs (splitSp_ne_nil a')
      | cons w ws => simp

theorem splitSp_chars : ∀ t : List Char, ∀ x ∈ splitSp t,
    ∀ c ∈ x, c ∈ t ∧ isPySpace c = false := by
  intro t
  induction t with
  | nil =>
    intro x hx c hc
    simp [splitSp] at hx
    subst hx
    simp at hc
  | cons a cs ih =>
    intro x hx c hc
    by_cases h : isPySpace a
    · rw [splitSp_cons_space cs h] at hx
      rcases List.mem_cons.mp hx with h1 | h1
      · subst h1; simp at hc
      · have := ih x h1 c hc
        exact ⟨List.mem_cons_of_mem a this.1, this.2⟩
    · have h' : isPySpace a = false := by simp [h]
      rw [splitSp_cons_nonspace cs h'] at hx
      rcases List.mem_cons.mp hx with h1 | h1
      · subst h1
        rcases List.mem_cons.mp hc with h2 | h2
        · subst h2; exact ⟨List.mem_cons_self c cs, h'⟩
        · cases hs : splitSp cs with
          | nil => exact absurd hs (splitSp_ne_nil cs)
          | cons w ws =>
            have hw : w ∈ splitSp cs := by rw [hs]; exact List.mem_cons_self w ws
            rw [hs] at h2
            have := ih w hw c (by simpa using h2)
            exact ⟨List.mem_cons_of_mem a this.1, this.2⟩
      · have hx' : x ∈ splitSp cs := by
          cases hs : splitSp cs with
          | nil => exact absurd hs (splitSp_ne_nil cs)
          | cons w ws =>
            rw [hs] at h1
            exact List.mem_cons_of_mem w h1
        have h3 := ih x hx' c hc
        exact ⟨List.mem_cons_of_mem a h3.1, h3.2⟩

theorem pySplit_nil : pySplit [] = [] := rfl

theorem pySplit_cons_space {c : Char} (cs : List Char) (h : isPySpace c = true) :
    pySplit (c :: cs) = pySplit cs := by
  unfold pySplit
  rw [splitSp_cons_space cs h]
  simp

theorem pySplit_dropWhile_space : ∀ l : List Char,
    pySplit (l.dropWhile isPySpace) = pySplit l
  | [] => rfl
  | c :: cs => by
    rw [List.dropWhile_cons]
    by_cases h : isPySpace c
    · rw [if_pos h, pySplit_dropWhile_space cs, pySplit_cons_space cs h]
    · rw [if_neg h]

theorem pySplit_of_space_head (l : List Char)
    (h : l = [] ∨ ∃ d rest, l = d :: rest ∧ isPySpace d = true) :
    pySplit l = ((splitSp l).tail).filter (fun w => !w.isEmpty) := by
  rcases h with h | ⟨d, rest, rfl, hd⟩
  · subst h; rfl
  · rw [pySplit_cons_space rest hd, splitSp_cons_space rest hd]
    rfl

theorem pySplit_cons_nonspace {c : Char} (cs : List Char) (h : isPySpace c = false) :
    pySplit (c :: cs) = (c :: cs.takeWhile (fun c => !isPySpace c)) ::
      pySplit (cs.dropWhile (fun c => !isPySpace c)) := by
  have htail : pySplit (cs.dropWhile (fun c => !isPySpace c)) =
      ((splitSp (cs.dropWhile (fun c => !isPySpace c))).tail).filter
        (fun w => !w.isEmpty) := by
    apply pySplit_of_space_head
    rcases dropWhile_head_cases (fun c => !isPySpace c) cs with h1 | ⟨d, rest, h1, h2⟩
    · exact Or.inl h1
    · exact Or.inr ⟨d, rest, h1, by simpa using h2⟩
  rw [htail]
  unfold pySplit
  rw [splitSp_decomp (c :: cs)]
  simp only [List.takeWhile_cons, List.dropWhile_cons, h, Bool.not_false, if_true]
  rw [List.filter_cons]
  simp

theorem pySplit_mem {t x : List Char} (hx : x ∈ pySplit t) :
    x ≠ [] ∧ ∀ c ∈ x, c ∈ t ∧ isPySpace c = false := by
  unfold pySplit at hx
  have h1 := List.of_mem_filter hx
  have h2 := List.mem_of_mem_filter hx
  refine ⟨by simpa using h1, fun c hc => splitSp_chars t x h2 c hc⟩

theorem pySplit_append_space {d : Char} (hd : isPySpace d = true) (a b : List Char) :
    pySplit (a ++ d :: b) = pySplit a ++ pySplit b := by
  unfold pySplit
  rw [splitSp_append_space hd a b, List.filter_append]

theorem splitSp_all_nonspace : ∀ w : List Char, (∀ c ∈ w, isPySpace c = false) →
    splitSp w = [w]
  | [], _ => rfl
  | c :: w', h => by
    rw [splitSp_cons_nonspace w' (h c (by simp)),
      splitSp_all_nonspace w' (fun c hc => h c (List.mem_cons_of_mem _ hc))]
    simp

theorem pySplit_all_nonspace {w : List Char} (hne : w ≠ [])
    (h : ∀ c ∈ w, isPySpace c = false) : pySplit w = [w] := by
  unfold pySplit
  rw [splitSp_all_nonspace w h]
  simp [hne]

theorem joinSp_nil : joinSp [] = [] := by simp [joinSp, List.intercalate]

theorem joinSp_single (w : List Char) : joinSp [w] = w := by
  simp [joinSp, List.intercalate]

theorem joinSp_cons (w : List Char) (ws : List (List Char)) (h : ws ≠ []) :
    joinSp (w :: ws) = w ++ ' ' :: joinSp ws := by
  cases ws with
  | nil => exact absurd rfl h
  | cons x ws' => simp [joinSp, List.intercalate, List.intersperse, spaceRepl]

theorem pySplit_joinSp : ∀ ws : List (List Char),
    (∀ w ∈ ws, w ≠ [] ∧ ∀ c ∈ w, isPySpace c = false) → pySplit (joinSp ws) = ws := by
  intro ws
  induction ws with
  | nil => intro _; rw [joinSp_nil, pySplit_nil]
  | cons w ws' ih =>
    intro h
    cases ws' with
    | nil =>
      rw [joinSp_single]
      exact pySplit_all_nonspace (h w (by simp)).1 (h w (by simp)).2
    | cons x ws'' =>
      rw [joinSp_cons w (x :: ws'') (by simp),
        pySplit_append_space (by decide) w (joinSp (x :: ws''))]
      rw [pySplit_all_nonspace (h w (by simp)).1 (h w (by simp)).2]
      rw [ih (fun w hw => h w (List.mem_cons_of_mem _ hw))]
      rfl

/-! ### `stripPy` lemmas -/

theorem stripPy_nil : stripPy [] = [] := rfl

theorem stripPy_cons_space {c : Char} (t : List Char) (h : isPySpace c = true) :
    stripPy (c :: t) = stripPy t := by
  unfold stripPy
  rw [List.dropWhile_cons, if_pos h]

theorem stripPy_all_nonspace {t : List Char} (h : ∀ c ∈ t, isPySpace c = false) :
    stripPy t = t := by
  unfold stripPy
  rw [dropWhile_of_all_false h,
    dropWhile_of_all_false (fun c hc => h c (List.mem_reverse.mp hc)),
    List.reverse_reverse]

theorem stripPy_append_space {w : List Char} (hw : ∀ c ∈ w, isPySpace c = false)
    (hwne : w ≠ []) : stripPy (w ++ [' ']) = w := by
  unfold stripPy
  have h1 : (w ++ [' ']).dropWhile isPySpace = w ++ [' '] := by
    cases w with
    | nil => exact absurd rfl hwne
    | cons c cs =>
      rw [List.cons_append, List.dropWhile_cons,
        if_neg (by simp [hw c (List.mem_cons_self c cs)])]
  have h2 : (w ++ [' ']).reverse = ' ' :: w.reverse := by simp
  rw [h1, h2, List.dropWhile_cons, if_pos (by decide),
    dropWhile_of_all_false (fun c hc => hw c (List.mem_reverse.mp hc)),
    List.reverse_reverse]

theorem stripPy_word_append {w x : List Char} (hw : ∀ c ∈ w, isPySpace c = false)
    (hwne : w ≠ []) (hx : ∃ hd rest, x = hd :: rest ∧ isPySpace hd = false) :
    stripPy (w ++ ' ' :: x) = w ++ ' ' :: stripPy x := by
  obtain ⟨hd, rest, rfl, hhd⟩ := hx
  unfold stripPy
  have h1 : (w ++ ' ' :: hd :: rest).dropWhile isPySpace = w ++ ' ' :: hd :: rest := by
    cases w with
    | nil => exact absurd rfl hwne
    | cons c cs =>
      rw [List.cons_append, List.dropWhile_cons,
        if_neg (by simp [hw c (List.mem_cons_self c cs)])]
  have h2 : (hd :: rest).dropWhile isPySpace = hd :: rest := by
    rw [List.dropWhile_cons, if_neg (by simp [hhd])]
  have h4 : (hd :: rest).reverse.dropWhile isPySpace ≠ [] := by
    rw [Ne, List.dropWhile_eq_nil_iff]
    intro hall
    have hcon := hall hd (by simp)
    rw [hhd] at hcon
    exact Bool.false_ne_true hcon
  have h3 : (w ++ ' ' :: hd :: rest).reverse = (hd :: rest).reverse ++ ' ' :: w.reverse := by
    simp
  rw [h1, h2, h3, List.dropWhile_append,
    if_neg (by simp only [List.isEmpty_iff]; exact h4)]
  simp

/-! ### Prev-independence of the scanner for matchers that ignore it -/

theorem pySubP_prev_free {tm : Option Char → List Char → Option Nat}
    (htm : ∀ p₁ p₂ l, tm p₁ l = tm p₂ l) (r : List Char) (t : List Char)
    (p₁ p₂ : Option Char) : pySubP tm r p₁ t = pySubP tm r p₂ t := by
  cases t with
  | nil => rfl
  | cons c cs =>
    cases h : tm p₁ (c :: cs) with
    | some k =>
      have h2 : tm p₂ (c :: cs) = some k := by rw [htm p₂ p₁]; exact h
      rw [pySubP_cons_some r h, pySubP_cons_some r h2]
    | none =>
      have h2 : tm p₂ (c :: cs) = none := by rw [htm p₂ p₁]; exact h
      rw [pySubP_cons_none r h, pySubP_cons_none r h2]

theorem wsMatcher_prev_free (p₁ p₂ : Option Char) (l : List Char) :
    wsMatcher p₁ l = wsMatcher p₂ l := rfl

/-! ### The whitespace-collapsing pass -/

theorem wsSub_skip : ∀ (n : Nat) (cs : List Char), cs.length ≤ n → ∀ p,
    pySubP wsMatcher spaceRepl p cs =
      cs.takeWhile (fun c => !isPySpace c) ++
        (if (cs.dropWhile (fun c => !isPySpace c)).isEmpty then []
         else ' ' :: pySubP wsMatcher spaceRepl none
           ((cs.dropWhile (fun c => !isPySpace c)).dropWhile isPySpace)) := by
  intro n
  induction n with
  | zero =>
    intro cs hcs p
    cases cs with
    | nil => rfl
    | cons c cs' => simp at hcs
  | succ n ih =>
    intro cs hcs p
    cases cs with
    | nil => rfl
    | cons c cs' =>
      simp only [List.length_cons, Nat.succ_le_succ_iff] at hcs
      by_cases h : isPySpace c
      · have hm : wsMatcher p (c :: cs') = some (spaceLen cs') := by
          simp [wsMatcher, h]
        rw [pySubP_cons_some spaceRepl hm]
        have htw : (c :: cs').takeWhile (fun c => !isPySpace c) = [] := by
          rw [List.takeWhile_cons, if_neg (by simp [h])]
        have hdw : (c :: cs').dropWhile (fun c => !isPySpace c) = c :: cs' := by
          rw [List.dropWhile_cons, if_neg (by simp [h])]
        rw [htw, hdw, List.nil_append, if_neg (by simp)]
        have hdrop : cs'.drop (spaceLen cs') = cs'.dropWhile isPySpace := by
          unfold spaceLen
          exact drop_takeWhile_length isPySpace cs'
        rw [hdrop]
        have hcd : (c :: cs').dropWhile isPySpace = cs'.dropWhile isPySpace := by
          rw [List.dropWhile_cons, if_pos h]
        rw [hcd, pySubP_prev_free wsMatcher_prev_free spaceRepl
          (cs'.dropWhile isPySpace) (((c :: cs').take (spaceLen cs' + 1)).getLast?) none]
        rfl
      · have h' : isPySpace c = false := by simp [h]
        have hm : wsMatcher p (c :: cs') = none := by simp [wsMatcher, h]
        rw [pySubP_cons_none spaceRepl hm, ih cs' hcs (some c)]
        have h1 : (c :: cs').takeWhile (fun c => !isPySpace c) =
            c :: cs'.takeWhile (fun c => !isPySpace c) := by
          rw [List.takeWhile_cons, if_pos (by simp [h'])]
        have h2 : (c :: cs').dropWhile (fun c => !isPySpace c) =
            cs'.dropWhile (fun c => !isPySpace c) := by
          rw [List.dropWhile_cons, if_pos (by simp [h'])]
        rw [h1, h2, List.cons_append]

theorem wsSub_head_nonspace {e : Char} (ddw' : List Char) (h : isPySpace e = false)
    (p : Option Char) : ∃ hd rest, pySubP wsMatcher spaceRepl p (e :: ddw') = hd :: rest ∧
      isPySpace hd = false := by
  have hm : wsMatcher p (e :: ddw') = none := by simp [wsMatcher, h]
  rw [pySubP_cons_none spaceRepl hm]
  exact ⟨e, _, rfl, h⟩

theorem stripPy_wsSub : ∀ (n : Nat) (t : List Char), t.length ≤ n → ∀ p,
    stripPy (pySubP wsMatcher spaceRepl p t) = joinSp (pySplit t) := by
  intro n
  induction n with
  | zero =>
    intro t ht p
    cases t with
    | nil => rw [pySubP_nil, stripPy_nil, pySplit_nil, joinSp_nil]
    | cons c cs => simp at ht
  | succ n ih =>
    intro t ht p
    cases t with
    | nil => rw [pySubP_nil, stripPy_nil, pySplit_nil, joinSp_nil]
    | cons c cs =>
      simp only [List.length_cons, Nat.succ_le_succ_iff] at ht
      by_cases h : isPySpace c
      · have hm : wsMatcher p (c :: cs) = some (spaceLen cs) := by
          simp [wsMatcher, h]
        rw [pySubP_cons_some spaceRepl hm]
        have hdrop : cs.drop (spaceLen cs) = cs.dropWhile isPySpace := by
          unfold spaceLen
          exact drop_takeWhile_length isPySpace cs
        rw [hdrop]
        show stripPy (' ' :: _) = _
        rw [stripPy_cons_space _ (by decide)]
        show stripPy (pySubP wsMatcher spaceRepl _ (cs.dropWhile isPySpace)) = _
        rw [ih (cs.dropWhile isPySpace) (le_trans (length_dropWhile_le isPySpace cs) ht) _]
        rw [pySplit_dropWhile_space cs, pySplit_cons_space cs h]
      · have h' : isPySpace c = false := by simp [h]
        have hm : wsMatcher p (c :: cs) = none := by simp [wsMatcher, h]
        rw [pySubP_cons_none spaceRepl hm]
        rw [wsSub_skip cs.length cs le_rfl (some c)]
        rw [pySplit_cons_nonspace cs h']
        have htwns : ∀ x ∈ c :: cs.takeWhile (fun c => !isPySpace c), isPySpace x = false := by
          intro x hx
          rcases List.mem_cons.mp hx with rfl | hx
          · exact h'
          · simpa using List.mem_takeWhile_imp hx
        rcases dropWhile_head_cases (fun c => !isPySpace c) cs with hdwe | ⟨d, dw', hdwe, hd⟩
        · rw [hdwe]
          simp only [List.isEmpty_nil, if_true, List.append_nil, pySplit_nil]
          rw [stripPy_all_nonspace htwns, joinSp_single]
        · have hds : isPySpace d = true := by simpa using hd
          rw [hdwe, if_neg (by simp)]
          have h5 : (d :: dw').length ≤ n := by
            rw [← hdwe]
            exact le_trans (length_dropWhile_le _ cs) ht
          rcases dropWhile_head_cases isPySpace (d :: dw') with hddwe | ⟨e, ddw'', hddwe, he⟩
          · rw [hddwe, pySubP_nil]
            have hsplit : pySplit (d :: dw') = [] := by
              rw [← pySplit_dropWhile_space (d :: dw'), hddwe, pySplit_nil]
            rw [hsplit]
            show stripPy ((c :: cs.takeWhile (fun c => !isPySpace c)) ++ [' ']) = _
            rw [stripPy_append_space htwns (by simp), joinSp_single]
          · rw [hddwe]
            obtain ⟨hd0, rest0, hout, hhd0⟩ := wsSub_head_nonspace ddw'' he none
            show stripPy ((c :: cs.takeWhile (fun c => !isPySpace c)) ++
              ' ' :: pySubP wsMatcher spaceRepl none (e :: ddw'')) = _
            rw [stripPy_word_append htwns (by simp) ⟨hd0, rest0, hout, hhd0⟩]
            have hlen : (e :: ddw'').length ≤ n := by
              rw [← hddwe]
              exact le_trans (length_dropWhile_le isPySpace (d :: dw')) h5
            rw [ih (e :: ddw'') hlen none]
            have h6 : pySplit (d :: dw') = pySplit (e :: ddw'') := by
              rw [← pySplit_dropWhile_space (d :: dw'), hddwe]
            rw [h6, joinSp_cons _ _ (by rw [pySplit_cons_nonspace ddw'' he]; simp)]

theorem stripPy_pySub_ws (t : List Char) :
    stripPy (pySub wsMatcher spaceRepl t) = joinSp (pySplit t) :=
  stripPy_wsSub t.length t le_rfl none

/-! ### Characters of a substitution result -/

theorem pySubP_mem {tm : Option Char → List Char → Option Nat} {r : List Char} :
    ∀ (n : Nat) (t : List Char), t.length ≤ n → ∀ (p : Option Char) (c : Char),
      c ∈ pySubP tm r p t → c ∈ r ∨ c ∈ t := by
  intro n
  induction n with
  | zero =>
    intro t ht p c hc
    cases t with
    | nil => rw [pySubP_nil] at hc; simp at hc
    | cons a cs => simp at ht
  | succ n ih =>
    intro t ht p c hc
    cases t with
    | nil => rw [pySubP_nil] at hc; simp at hc
    | cons a cs =>
      simp only [List.length_cons, Nat.succ_le_succ_iff] at ht
      cases hm : tm p (a :: cs) with
      | some k =>
        rw [pySubP_cons_some r hm] at hc
        rcases List.mem_append.mp hc with hc | hc
        · exact Or.inl hc
        · rcases ih _ (le_trans (List.length_drop k cs ▸ Nat.sub_le _ _) ht) _ c hc with h1 | h1
          · exact Or.inl h1
          · exact Or.inr (List.mem_cons_of_mem a (List.mem_of_mem_drop h1))
      | none =>
        rw [pySubP_cons_none r hm] at hc
        rcases List.mem_cons.mp hc with rfl | hc
        · exact Or.inr (List.mem_cons_self _ _)
        · rcases ih cs ht _ c hc with h1 | h1
          · exact Or.inl h1
          · exact Or.inr (List.mem_cons_of_mem a h1)

theorem pySub_mem {tm : Option Char → List Char → Option Nat} {r t : List Char} {c : Char}
    (hc : c ∈ pySub tm r t) : c ∈ r ∨ c ∈ t :=
  pySubP_mem t.length t le_rfl none c hc

theorem pySubP_kept {tm : Option Char → List Char → Option Nat} {r : List Char}
    {P : Char → Prop} (hk : ∀ p a cs, tm p (a :: cs) = none → P a)
    (hr : ∀ c ∈ r, P c) :
    ∀ (n : Nat) (t : List Char), t.length ≤ n → ∀ (p : Option Char) (c : Char),
      c ∈ pySubP tm r p t → P c := by
  intro n
  induction n with
  | zero =>
    intro t ht p c hc
    cases t with
    | nil => rw [pySubP_nil] at hc; simp at hc
    | cons a cs => simp at ht
  | succ n ih =>
    intro t ht p c hc
    cases t with
    | nil => rw [pySubP_nil] at hc; simp at hc
    | cons a cs =>
      simp only [List.length_cons, Nat.succ_le_succ_iff] at ht
      cases hm : tm p (a :: cs) with
      | some k =>
        rw [pySubP_cons_some r hm] at hc
        rcases List.mem_append.mp hc with hc | hc
        · exact hr c hc
        · exact ih _ (le_trans (List.length_drop k cs ▸ Nat.sub_le _ _) ht) _ c hc
      | none =>
        rw [pySubP_cons_none r hm] at hc
        rcases List.mem_cons.mp hc with hca | hc
        · subst hca
          exact hk p c cs hm
        · exact ih cs ht _ c hc

theorem pySub_kept {tm : Option Char → List Char → Option Nat} {r : List Char}
    {P : Char → Prop} (hk : ∀ p a cs, tm p (a :: cs) = none → P a)
    (hr : ∀ c ∈ r, P c) {t : List Char} {c : Char} (hc : c ∈ pySub tm r t) : P c :=
  pySubP_kept hk hr t.length t le_rfl none c hc

/-! ### The stages of `basic_clean` and its character-set guarantee -/

theorem basic_clean_eq_join (s : List Char) :
    basic_clean s = joinSp (pySplit (cleanStage4 s)) :=
  stripPy_pySub_ws (cleanStage4 s)

theorem mem_spaceRepl {c : Char} (h : c ∈ spaceRepl) : c = ' ' := by
  simpa [spaceRepl] using h

theorem cleanStage3_not_upper (s : List Char) :
    ∀ c ∈ cleanStage3 s, isUpperAZ c = false := by
  intro c hc
  rcases pySub_mem hc with h1 | h1
  · rw [mem_spaceRepl h1]; decide
  · rcases pySub_mem h1 with h2 | h2
    · rw [mem_spaceRepl h2]; decide
    · rcases List.mem_map.mp h2 with ⟨a, _, rfl⟩
      exact isUpperAZ_toLower a

theorem cleanStage4_chars (s : List Char) :
    ∀ c ∈ cleanStage4 s, isLowerAZ c = true ∨ isPySpace c = true := by
  intro c hc
  have hAZ : (isAZ c || isPySpace c) = true := by
    refine pySub_kept (P := fun c => (isAZ c || isPySpace c) = true) ?_ ?_ hc
    · intro p a cs hm
      by_contra hcl
      have hmm : nonAlphaMatcher p (a :: cs) = some 0 := by
        simp [nonAlphaMatcher, hcl]
      rw [hmm] at hm
      exact absurd hm (by simp)
    · intro c hc
      rw [mem_spaceRepl hc]; decide
  have hnu : isUpperAZ c = false := by
    rcases pySub_mem hc with h1 | h1
    · rw [mem_spaceRepl h1]; decide
    · exact cleanStage3_not_upper s c h1
  rw [Bool.or_eq_true] at hAZ
  rcases hAZ with h | h
  · rw [isAZ, hnu] at h
    simp only [Bool.false_or] at h
    exact Or.inl h
  · exact Or.inr h

/-! ### Normalized output shape -/

theorem isNormalized_joinSp {ws : List (List Char)}
    (h : ∀ w ∈ ws, w ≠ [] ∧ ∀ c ∈ w, isLowerAZ c = true) :
    isNormalized (joinSp ws) = true := by
  have hsp : ∀ w ∈ ws, w ≠ [] ∧ ∀ c ∈ w, isPySpace c = false :=
    fun w hw => ⟨(h w hw).1, fun c hc => not_space_of_lower ((h w hw).2 c hc)⟩
  have hrt := pySplit_joinSp ws hsp
  unfold isNormalized
  rw [hrt]
  simp only [decide_eq_true_eq, Bool.and_eq_true, List.all_eq_true]
  exact ⟨trivial, fun w hw c hc => (h w hw).2 c hc⟩

theorem basic_clean_words (s : List Char) :
    ∀ w ∈ pySplit (cleanStage4 s), w ≠ [] ∧ ∀ c ∈ w, isLowerAZ c = true := by
  intro w hw
  obtain ⟨hne, hch⟩ := pySplit_mem hw
  refine ⟨hne, fun c hc => ?_⟩
  rcases cleanStage4_chars s c (hch c hc).1 with h | h
  · exact h
  · rw [(hch c hc).2] at h
    exact absurd h (by simp)

theorem basic_clean_normalized (s : List Char) : isNormalized (basic_clean s) = true := by
  rw [basic_clean_eq_join]
  exact isNormalized_joinSp (basic_clean_words s)

/-! ### `remove_stopwords` on a join of words -/

theorem joinSp_cons_ne_nil {w : List Char} (ws : List (List Char)) (hw : w ≠ []) :
    joinSp (w :: ws) ≠ [] := by
  cases ws with
  | nil => rw [joinSp_single]; exact hw
  | cons x ws' =>
    rw [joinSp_cons _ _ (by simp)]
    simp [hw]

theorem remove_stopwords_join (S : List (List Char)) (ws : List (List Char))
    (h : ∀ w ∈ ws, w ≠ [] ∧ ∀ c ∈ w, isPySpace c = false) :
    remove_stopwords S (joinSp ws) =
      joinSp (ws.filter (fun w => decide (w ∉ S))) := by
  unfold remove_stopwords
  cases ws with
  | nil => rw [joinSp_nil]; rfl
  | cons w ws' =>
    have hne : joinSp (w :: ws') ≠ [] := joinSp_cons_ne_nil ws' (h w (by simp)).1
    rw [if_neg (by simp only [List.isEmpty_iff]; exact hne),
      pySplit_joinSp (w :: ws') h]

/-! ### Case-insensitive literal matching -/

theorem ciLit_iff : ∀ (w l : List Char), ciLit w l = true ↔
    ∃ m rest, l = m ++ rest ∧ m.map Char.toLower = w := by
  intro w
  induction w with
  | nil =>
    intro l
    constructor
    · intro _
      exact ⟨[], l, rfl, rfl⟩
    · intro _
      rfl
  | cons p ps ih =>
    intro l
    cases l with
    | nil =>
      show false = true ↔ _
      simp only [Bool.false_eq_true, false_iff]
      rintro ⟨m, rest, hml, hmap⟩
      have hm : m = [] := by
        cases m with
        | nil => rfl
        | cons a m' => simp at hml
      subst hm
      simp at hmap
    | cons c cs =>
      unfold ciLit
      rw [Bool.and_eq_true, beq_iff_eq, ih cs]
      constructor
      · rintro ⟨hc, m', rest, rfl, hmap⟩
        exact ⟨c :: m', rest, rfl, by simp [hmap, hc]⟩
      · rintro ⟨m, rest, hml, hmap⟩
        cases m with
        | nil => simp at hmap
        | cons a m' =>
          simp only [List.cons_append, List.cons.injEq] at hml
          obtain ⟨rfl, rfl⟩ := hml
          simp only [List.map_cons, List.cons.injEq] at hmap
          exact ⟨hmap.1, m', rest, rfl, hmap.2⟩

theorem ciLit_take {w l : List Char} (h : ciLit w l = true) :
    (l.take w.length).map Char.toLower = w := by
  obtain ⟨m, rest, rfl, hmap⟩ := (ciLit_iff w _).mp h
  have hlen : w.length = m.length := by rw [← hmap, List.length_map]
  rw [hlen, List.take_left, hmap]

theorem ciLit_length_le {w l : List Char} (h : ciLit w l = true) : w.length ≤ l.length := by
  obtain ⟨m, rest, rfl, hmap⟩ := (ciLit_iff w _).mp h
  have hlen : w.length = m.length := by rw [← hmap, List.length_map]
  rw [hlen, List.length_append]
  omega

/-! ### The anchored citation pattern -/

theorem ciLit_head_ne {p : Char} {ps : List Char} {c : Char} {cs : List Char}
    (hp : isLowerAZ p = false) (hc : c ≠ p) : ciLit (p :: ps) (c :: cs) = false := by
  have hb : (Char.toLower c == p) = false := by
    rw [beq_eq_false_iff_ne]
    intro h
    exact hc (toLower_fix hp h)
  unfold ciLit
  rw [hb, Bool.false_and]

theorem parenCand_none : ∀ {t : List Char}, (∀ c ∈ t, c ≠ '(') → parenCand t = none
  | [], _ => rfl
  | c :: cs, h => by
    have hc : c ≠ '(' := h c (List.mem_cons_self c cs)
    have h1 : ciLit reutersParen (c :: cs) = false := by
      have hr : reutersParen = '(' :: "reuters)".toList := by decide
      rw [hr]
      exact ciLit_head_ne (by decide) hc
    have h2 : ciLit apParen (c :: cs) = false := by
      have hr : apParen = '(' :: "ap)".toList := by decide
      rw [hr]
      exact ciLit_head_ne (by decide) hc
    unfold parenCand
    rw [h1, h2]
    simp only [Bool.false_eq_true, if_false]
    rw [parenCand_none (fun c hc => h c (List.mem_cons_of_mem _ hc))]
    split <;> rfl

theorem citationStrip_no_paren {t : List Char} (h : ∀ c ∈ t, c ≠ '(') :
    citationStrip t = t := by
  unfold citationStrip
  rw [parenCand_none h]

theorem lower_ne_char {c d : Char} (h : isLowerAZ c = true) (hd : isLowerAZ d = false) :
    c ≠ d := by
  intro heq
  subst heq
  rw [h] at hd
  exact absurd hd (by simp)

theorem joinSp_chars {ws : List (List Char)}
    (h : ∀ w ∈ ws, ∀ c ∈ w, isLowerAZ c = true) :
    ∀ c ∈ joinSp ws, isLowerAZ c = true ∨ c = ' ' := by
  induction ws with
  | nil => intro c hc; rw [joinSp_nil] at hc; simp at hc
  | cons w ws' ih =>
    intro c hc
    cases ws' with
    | nil =>
      rw [joinSp_single] at hc
      exact Or.inl (h w (by simp) c hc)
    | cons x ws'' =>
      rw [joinSp_cons _ _ (by simp)] at hc
      rcases List.mem_append.mp hc with hc | hc
      · exact Or.inl (h w (by simp) c hc)
      · rcases List.mem_cons.mp hc with rfl | hc
        · exact Or.inr rfl
        · exact ih (fun w hw => h w (List.mem_cons_of_mem _ hw)) c hc

/-! ### Identity of a pass with no match anywhere (prev-insensitive matchers) -/

theorem pySubP_id_of_no_match {tm : Option Char → List Char → Option Nat} {r : List Char} :
    ∀ (n : Nat) (t : List Char), t.length ≤ n →
      (∀ (p : Option Char) (l : List Char), l ≠ [] → l.IsSuffix t → tm p l = none) →
      ∀ p, pySubP tm r p t = t := by
  intro n
  induction n with
  | zero =>
    intro t ht _ p
    cases t with
    | nil => rfl
    | cons c cs => simp at ht
  | succ n ih =>
    intro t ht hno p
    cases t with
    | nil => rfl
    | cons c cs =>
      simp only [List.length_cons, Nat.succ_le_succ_iff] at ht
      rw [pySubP_cons_none r (hno p (c :: cs) (by simp) (List.suffix_refl _))]
      rw [ih cs ht (fun p l hl hsuf => hno p l hl (hsuf.trans (List.suffix_cons c cs))) (some c)]

theorem pySub_id_of_no_match {tm : Option Char → List Char → Option Nat} {r t : List Char}
    (hno : ∀ (p : Option Char) (l : List Char), l ≠ [] → l.IsSuffix t → tm p l = none) :
    pySub tm r t = t :=
  pySubP_id_of_no_match t.length t le_rfl hno none

/-! ### The stopword stage of the pipeline -/

theorem basic_clean_words_sp (s : List Char) :
    ∀ w ∈ pySplit (cleanStage4 s), w ≠ [] ∧ ∀ c ∈ w, isPySpace c = false :=
  fun w hw => ⟨(basic_clean_words s w hw).1,
    fun c hc => not_space_of_lower ((basic_clean_words s w hw).2 c hc)⟩

theorem rs_bc_eq_join (S : List (List Char)) (s : List Char) :
    remove_stopwords S (basic_clean s) =
      joinSp ((pySplit (cleanStage4 s)).filter (fun w => decide (w ∉ S))) := by
  rw [basic_clean_eq_join, remove_stopwords_join S _ (basic_clean_words_sp s)]

theorem rs_bc_chars (S : List (List Char)) (s : List Char) :
    ∀ c ∈ remove_stopwords S (basic_clean s), isLowerAZ c = true ∨ c = ' ' := by
  rw [rs_bc_eq_join]
  apply joinSp_chars
  intro w hw
  exact (basic_clean_words s w (List.mem_of_mem_filter hw)).2

theorem citationStrip_rs_bc (S : List (List Char)) (s : List Char) :
    citationStrip (remove_stopwords S (basic_clean s)) =
      remove_stopwords S (basic_clean s) := by
  apply citationStrip_no_paren
  intro c hc
  rcases rs_bc_chars S s c hc with h | h
  · exact lower_ne_char h (by decide)
  · subst h; decide

/-! ### Characters surviving the leakage stage -/

theorem leakPass_mem {t w : List Char} {c : Char} (hc : c ∈ leakPass t w) : c ∈ t := by
  unfold leakPass at hc
  rcases pySub_mem hc with h | h
  · simp at h
  · exact h

theorem foldl_leakPass_mem : ∀ (ws : List (List Char)) (t : List Char) (c : Char),
    c ∈ ws.foldl leakPass t → c ∈ t
  | [], _, _, hc => hc
  | w :: ws', t, c, hc => leakPass_mem (foldl_leakPass_mem ws' (leakPass t w) c hc)

theorem citationStrip_cases (t : List Char) :
    citationStrip t = t ∨ ∃ m, citationStrip t = t.drop m := by
  cases h1 : parenCand t with
  | none =>
    refine Or.inl ?_
    unfold citationStrip
    rw [h1]
  | some j =>
    cases h2 : findDash (t.drop j) with
    | none =>
      refine Or.inl ?_
      unfold citationStrip
      rw [h1]
      show (match findDash (t.drop j) with
        | none => t
        | some k => t.drop (j + k + 1)) = t
      rw [h2]
    | some k =>
      refine Or.inr ⟨j + k + 1, ?_⟩
      unfold citationStrip
      rw [h1]
      show (match findDash (t.drop j) with
        | none => t
        | some k => t.drop (j + k + 1)) = t.drop (j + k + 1)
      rw [h2]

theorem citationStrip_mem {t : List Char} {c : Char} (hc : c ∈ citationStrip t) : c ∈ t := by
  rcases citationStrip_cases t with h | ⟨m, h⟩
  · rw [h] at hc; exact hc
  · rw [h] at hc; exact List.mem_of_mem_drop hc

theorem remove_leakage_words_eq_join {u : List Char} (hu : u ≠ []) :
    remove_leakage_words u =
      joinSp (pySplit (leakage_words.foldl leakPass (citationStrip u))) := by
  unfold remove_leakage_words
  rw [if_neg (by simp [hu])]
  exact stripPy_pySub_ws _

theorem preprocess_text_normalized (S : List (List Char)) (s : List Char) :
    isNormalized (preprocess_text S s) = true := by
  unfold preprocess_text
  by_cases hs : s.isEmpty
  · rw [if_pos hs]; decide
  · rw [if_neg hs]
    by_cases hu : remove_stopwords S (basic_clean s) = []
    · rw [hu]; decide
    · rw [remove_leakage_words_eq_join hu]
      apply isNormalized_joinSp
      intro w hw
      obtain ⟨hne, hch⟩ := pySplit_mem hw
      refine ⟨hne, fun c hc => ?_⟩
      have hcu : c ∈ remove_stopwords S (basic_clean s) :=
        citationStrip_mem (foldl_leakPass_mem leakage_words _ c (hch c hc).1)
      rcases rs_bc_chars S s c hcu with h | h
      · exact h
      · exfalso
        have := (hch c hc).2
        rw [h] at this
        exact absurd this (by decide)

/-! ### Concrete inputs from the spec scenarios, and the comparison pipeline
for the refinement claim -/

/-! ### Claim C1 -/

/-- C1: for every stopword set and every input string, `preprocess_text`
returns either the empty string or lowercase ASCII letters separated by
single spaces with no leading or trailing whitespace (`isNormalized`), and
`basic_clean` alone already guarantees the same character-set property. -/
theorem claim_c1 (S : List (List Char)) (t : List Char) :
    isNormalized (basic_clean t) = true ∧ isNormalized (preprocess_text S t) = true :=
  ⟨basic_clean_normalized t, preprocess_text_normalized S t⟩

/-! ### Claim C5 -/

/-- C5: reached through `preprocess_text`, the leading-citation substitution
of `remove_leakage_words` is a no-op (because `basic_clean` has already
replaced every parenthesis), so the pipeline equals the same pipeline with
that substitution deleted. -/
theorem claim_c5 (S : List (List Char)) (t : List Char) :
    citationStrip (remove_stopwords S (basic_clean t)) =
      remove_stopwords S (basic_clean t) ∧
    preprocess_text S t = preprocess_text_nocite S t := by
  refine ⟨citationStrip_rs_bc S t, ?_⟩
  unfold preprocess_text preprocess_text_nocite
  by_cases ht : t.isEmpty
  · rw [if_pos ht, if_pos ht]
  · rw [if_neg ht, if_neg ht]
    unfold remove_leakage_words remove_leakage_words_nocite
    by_cases hu : (remove_stopwords S (basic_clean t)).isEmpty
    · rw [if_pos hu, if_pos hu]
    · rw [if_neg hu, if_neg hu, citationStrip_rs_bc S t]

/-! ### Claim C8 -/

/-- C8: `basic_clean` on the concrete scenario input produces exactly
`visit now`. -/
theorem claim_c8 : basic_clean c8_input = c8_expected := by decide

/-! ### Claim C10 -/

/-- C10: twenty-five exclamation marks pass `validate_input_text` with the
default threshold 20, yet `preprocess_text` maps them to the empty string
for every stopword set: validation does not guarantee non-empty normalized
text. -/
theorem claim_c10 :
    validate_input_text (.vstr c10_input) 20 = true ∧
    ∀ S, preprocess_text S c10_input = [] := by
  refine ⟨by decide, fun S => ?_⟩
  unfold preprocess_text
  rw [if_neg (by decide)]
  have hbc : basic_clean c10_input = [] := by decide
  rw [hbc]
  have hrs : remove_stopwords S [] = [] := by unfold remove_stopwords; rfl
  rw [hrs]
  rfl

/-! ### Claim C6 -/

/-- C6: `validate_input_text` is false on the empty string (for every
threshold), on every falsy value and on every non-string value; on a
non-empty string it is true exactly when the whitespace-stripped length is
at least `min_length`; and the three concrete spec examples hold with the
default threshold 20. -/
theorem claim_c6 :
    (∀ n : Int, validate_input_text (.vstr []) n = false) ∧
    (∀ (v : PyVal) (n : Int), truthy v = false → validate_input_text v n = false) ∧
    (∀ (v : PyVal) (n : Int), (∀ s, v ≠ .vstr s) → validate_input_text v n = false) ∧
    (∀ (s : List Char) (n : Int), s ≠ [] →
      (validate_input_text (.vstr s) n = true ↔ n ≤ Int.ofNat (stripPy s).length)) ∧
    validate_input_text (.vstr c6_short) 20 = false ∧
    validate_input_text (.vstr (List.replicate 25 'a')) 20 = true := by
  refine ⟨fun n => rfl, ?_, ?_, ?_, by decide, by decide⟩
  · intro v n h
    unfold validate_input_text
    rw [h]
    simp
  · intro v n h
    unfold validate_input_text
    cases v with
    | vstr s => exact absurd rfl (h s)
    | vint k => split <;> rfl
    | vnone => rfl
    | vlist l => split <;> rfl
  · intro s n hs
    unfold validate_input_text
    have ht : truthy (.vstr s) = true := by
      simp [truthy, hs]
    rw [ht]
    simp

/-- C6 witness: the theorem applied at concrete inputs. -/
theorem claim_c6_witness :
    validate_input_text (.vint 0) 7 = false ∧
    validate_input_text (.vint 3) 7 = false ∧
    (validate_input_text (.vstr c6_short) 5 = true ↔
      (5 : Int) ≤ Int.ofNat (stripPy c6_short).length) :=
  ⟨claim_c6.2.1 (.vint 0) 7 (by decide),
   claim_c6.2.2.1 (.vint 3) 7 (fun s h => by cases h),
   claim_c6.2.2.2.1 c6_short 5 (by decide)⟩

/-! ### Claim C7 -/

/-- C7: `preprocess_batch` maps `preprocess_text` element-wise over a list,
preserving order and length; every falsy input (in particular the empty
list) yields the empty list; and on a two-element list of strings it
returns exactly the two preprocessed strings. -/
theorem claim_c7 :
    (∀ (S : List (List Char)) (l : List PyVal),
      preprocess_batch S (.vlist l) = .ok (l.map (preprocess_text_py S)) ∧
        (l.map (preprocess_text_py S)).length = l.length) ∧
    (∀ (S : List (List Char)) (v : PyVal), truthy v = false →
      preprocess_batch S v = .ok []) ∧
    (∀ (S : List (List Char)) (t1 t2 : List Char),
      preprocess_batch S (.vlist [.vstr t1, .vstr t2]) =
        .ok [preprocess_text S t1, preprocess_text S t2]) := by
  refine ⟨?_, ?_, ?_⟩
  · intro S l
    refine ⟨?_, by rw [List.length_map]⟩
    cases l with
    | nil => rfl
    | cons x xs => rfl
  · intro S v h
    unfold preprocess_batch
    rw [h]
    simp
  · intro S t1 t2
    rfl

/-- C7 witness: the theorem applied at concrete inputs. -/
theorem claim_c7_witness :
    preprocess_batch STOP_WORDS (.vint 0) = .ok [] ∧
    preprocess_batch STOP_WORDS (.vlist []) =
      .ok (([] : List PyVal).map (preprocess_text_py STOP_WORDS)) :=
  ⟨claim_c7.2.1 STOP_WORDS (.vint 0) (by decide),
   (claim_c7.1 STOP_WORDS []).1⟩

/-! ### Claim C9 -/

/-- C9: `combine_title_content` is exactly coercion of both arguments to
strings (non-strings become empty), single-space interpolation, and
end-stripping, with no inner normalization; including the two spec examples
and an inner-double-space example. -/
theorem claim_c9 :
    (∀ a b : PyVal, combine_title_content a b =
      stripPy (strOrEmpty a ++ ' ' :: strOrEmpty b)) ∧
    (∀ s : List Char, strOrEmpty (.vstr s) = s) ∧
    (∀ v : PyVal, (∀ s, v ≠ .vstr s) → strOrEmpty v = []) ∧
    combine_title_content (.vstr c9_a) (.vstr c9_b) = c9_ab ∧
    combine_title_content .vnone (.vstr c9_b) = c9_b ∧
    combine_title_content (.vstr c9_inner) (.vstr c9_c) = c9_inner_res := by
  refine ⟨?_, fun s => rfl, ?_, by decide, by decide, by decide⟩
  · intro a b
    unfold combine_title_content
    rw [List.append_assoc]
    rfl
  intro v h
  cases v with
  | vstr s => exact absurd rfl (h s)
  | vint k => rfl
  | vnone => rfl
  | vlist l => rfl

/-- C9 witness: the theorem applied at concrete inputs. -/
theorem claim_c9_witness :
    strOrEmpty .vnone = [] ∧
    combine_title_content (.vstr c9_a) .vnone =
      stripPy (strOrEmpty (.vstr c9_a) ++ ' ' :: strOrEmpty .vnone) :=
  ⟨claim_c9.2.2.1 .vnone (fun s h => by cases h),
   claim_c9.1 (.vstr c9_a) .vnone⟩

/-! ### Claim C3 (corrected) -/

/-- C3 counterexample: the claim "no function raises for truthy non-string
input" is false on the code: `remove_stopwords` reaches `text.split()` on
the integer 1 and raises `AttributeError`; `remove_leakage_words` reaches
`re.sub` and raises `TypeError`; `preprocess_batch` iterates a non-iterable
and raises `TypeError`. -/
theorem claim_c3_counterexample :
    remove_stopwords_py STOP_WORDS (.vint 1) = .error .attributeError ∧
    remove_leakage_words_py (.vint 1) = .error .typeError ∧
    preprocess_batch STOP_WORDS (.vint 1) = .error .typeError := by
  exact ⟨rfl, rfl, rfl⟩

/-- C3 amended: `basic_clean`, `preprocess_text`, `combine_title_content`
and `validate_input_text` return normally for every value, degrading to an
empty/false result on non-string or falsy input, and `preprocess_batch`
does so on every list and every falsy value; `remove_stopwords` and
`remove_leakage_words` return normally on every string and every falsy
value, but raise (`AttributeError` / `TypeError`) on truthy non-string
input, as does `preprocess_batch` on truthy non-iterable input. -/
theorem claim_c3_amended :
    (∀ (S : List (List Char)) (v : PyVal), truthy v = false →
      remove_stopwords_py S v = .ok [] ∧ remove_leakage_words_py v = .ok [] ∧
        preprocess_batch S v = .ok []) ∧
    (∀ (S : List (List Char)) (s : List Char),
      remove_stopwords_py S (.vstr s) = .ok (remove_stopwords S s) ∧
        remove_leakage_words_py (.vstr s) = .ok (remove_leakage_words s)) ∧
    (∀ v : PyVal, (∀ s, v ≠ .vstr s) →
      basic_clean_py v = [] ∧ (∀ S, preprocess_text_py S v = []) ∧
        (∀ n : Int, validate_input_text v n = false)) ∧
    (∀ (S : List (List Char)) (l : List PyVal),
      preprocess_batch S (.vlist l) = .ok (l.map (preprocess_text_py S))) ∧
    (∀ (S : List (List Char)) (k : Int), k ≠ 0 →
      remove_stopwords_py S (.vint k) = .error .attributeError ∧
        remove_leakage_words_py (.vint k) = .error .typeError ∧
        preprocess_batch S (.vint k) = .error .typeError) := by
  refine ⟨?_, ?_, ?_, ?_, ?_⟩
  · intro S v h
    refine ⟨?_, ?_, ?_⟩
    · unfold remove_stopwords_py
      rw [h]
      simp
    · unfold remove_leakage_words_py
      rw [h]
      simp
    · unfold preprocess_batch
      rw [h]
      simp
  · intro S s
    cases s with
    | nil => exact ⟨rfl, rfl⟩
    | cons c cs => exact ⟨rfl, rfl⟩
  · intro v h
    refine ⟨?_, ?_, ?_⟩
    · cases v with
      | vstr s => exact absurd rfl (h s)
      | vint k => rfl
      | vnone => rfl
      | vlist l => rfl
    · intro S
      cases v with
      | vstr s => exact absurd rfl (h s)
      | vint k => rfl
      | vnone => rfl
      | vlist l => rfl
    · intro n
      cases v with
      | vstr s => exact absurd rfl (h s)
      | vint k => unfold validate_input_text; split <;> rfl
      | vnone => rfl
      | vlist l => unfold validate_input_text; split <;> rfl
  · intro S l
    cases l with
    | nil => rfl
    | cons x xs => rfl
  · intro S k hk
    have ht : truthy (.vint k) = true := by simp [truthy, hk]
    refine ⟨?_, ?_, ?_⟩
    · unfold remove_stopwords_py
      rw [ht]
      simp
    · unfold remove_leakage_words_py
      rw [ht]
      simp
    · unfold preprocess_batch
      rw [ht]
      simp

/-- C3 witness: the amended theorem applied at concrete inputs. -/
theorem claim_c3_witness :
    remove_stopwords_py STOP_WORDS .vnone = .ok [] ∧
    remove_stopwords_py STOP_WORDS (.vint 2) = .error .attributeError ∧
    basic_clean_py (.vint 2) = [] :=
  ⟨(claim_c3_amended.1 STOP_WORDS .vnone rfl).1,
   (claim_c3_amended.2.2.2.2 STOP_WORDS 2 (by decide)).1,
   (claim_c3_amended.2.2.1 (.vint 2) (fun s h => by cases h)).1⟩

/-! ### Claim C2 -/

/-- C2: on the concrete citation scenario, for any stopword set containing
`the` but none of the five content words, `preprocess_text` yields exactly
`washington president today`: the citation words `reuters` and `said` are
gone, no `reuters` (hence no `washington reuters`) remains as a whole word,
and the output has no punctuation (lowercase letters and spaces only). -/
theorem claim_c2 (S : List (List Char)) (hthe : wThe ∈ S) (h1 : wWashington ∉ S)
    (h2 : wReuters ∉ S) (h3 : wPresident ∉ S) (h4 : wSaid ∉ S) (h5 : wToday ∉ S) :
    preprocess_text S c2_input = c2_result ∧
    wReuters ∉ pySplit (preprocess_text S c2_input) ∧
    wSaid ∉ pySplit (preprocess_text S c2_input) ∧
    (∀ c ∈ preprocess_text S c2_input, isLowerAZ c = true ∨ c = ' ') := by
  have hbc : basic_clean c2_input = c2_cleaned := by decide
  have hsplit : pySplit c2_cleaned =
      [wWashington, wReuters, wThe, wPresident, wSaid, wToday] := by decide
  have e1 : decide (wWashington ∉ S) = true := decide_eq_true h1
  have e2 : decide (wReuters ∉ S) = true := decide_eq_true h2
  have e3 : decide (wThe ∉ S) = false := decide_eq_false (fun hn => hn hthe)
  have e4 : decide (wPresident ∉ S) = true := decide_eq_true h3
  have e5 : decide (wSaid ∉ S) = true := decide_eq_true h4
  have e6 : decide (wToday ∉ S) = true := decide_eq_true h5
  have hrs : remove_stopwords S c2_cleaned = c2_nostop := by
    unfold remove_stopwords
    rw [if_neg (by decide), hsplit]
    simp only [List.filter_cons, List.filter_nil, e1, e2, e3, e4, e5, e6,
      if_true, if_false]
    decide
  have hleak : remove_leakage_words c2_nostop = c2_result := by decide
  have heq : preprocess_text S c2_input = c2_result := by
    unfold preprocess_text
    rw [if_neg (by decide), hbc, hrs, hleak]
  refine ⟨heq, ?_, ?_, ?_⟩
  · rw [heq]; decide
  · rw [heq]; decide
  · rw [heq]; decide

/-- C2 witness: the theorem applied with the concrete NLTK stopword list. -/
theorem claim_c2_witness :
    preprocess_text STOP_WORDS c2_input = c2_result ∧
    wReuters ∉ pySplit (preprocess_text STOP_WORDS c2_input) := by
  have h := claim_c2 STOP_WORDS (by decide) (by decide) (by decide) (by decide)
    (by decide) (by decide)
  exact ⟨h.1, h.2.1⟩

/-! ### Words of a space-replacement pass are infixes of the input -/

theorem pySub_splitSp_inf {tm : Option Char → List Char → Option Nat} :
    ∀ (n : Nat) (t : List Char), t.length ≤ n → ∀ p,
      ((splitSp (pySubP tm spaceRepl p t)).headI <+: t) ∧
      (∀ w ∈ splitSp (pySubP tm spaceRepl p t), w <:+: t) := by
  intro n
  induction n with
  | zero =>
    intro t ht p
    cases t with
    | nil =>
      rw [pySubP_nil]
      exact ⟨by simp [splitSp], by intro w hw; simp [splitSp] at hw; simp [hw]⟩
    | cons c cs => simp at ht
  | succ n ih =>
    intro t ht p
    cases t with
    | nil =>
      rw [pySubP_nil]
      exact ⟨by simp [splitSp], by intro w hw; simp [splitSp] at hw; simp [hw]⟩
    | cons c cs =>
      simp only [List.length_cons, Nat.succ_le_succ_iff] at ht
      cases hm : tm p (c :: cs) with
      | some k =>
        rw [pySubP_cons_some spaceRepl hm]
        have hrec := ih (cs.drop k) (le_trans (List.length_drop k cs ▸ Nat.sub_le _ _) ht)
          (((c :: cs).take (k + 1)).getLast?)
        show ((splitSp (' ' :: _)).headI <+: c :: cs) ∧ _
        rw [splitSp_cons_space _ (by decide)]
        constructor
        · simp
        · intro w hw
          rcases List.mem_cons.mp hw with rfl | hw
          · exact ⟨[], c :: cs, by simp⟩
          · exact List.infix_cons ((hrec.2 w hw).trans
              (List.IsSuffix.isInfix (List.drop_suffix k cs)))
      | none =>
        rw [pySubP_cons_none spaceRepl hm]
        have hrec := ih cs ht (some c)
        by_cases hc : isPySpace c
        · rw [splitSp_cons_space _ hc]
          constructor
          · simp
          · intro w hw
            rcases List.mem_cons.mp hw with rfl | hw
            · exact ⟨[], c :: cs, by simp⟩
            · exact List.infix_cons (hrec.2 w hw)
        · rw [splitSp_cons_nonspace _ (by simp [hc])]
          constructor
          · show c :: _ <+: c :: cs
            rw [List.cons_prefix_cons]
            exact ⟨rfl, hrec.1⟩
          · intro w hw
            rcases List.mem_cons.mp hw with rfl | hw
            · refine List.IsPrefix.isInfix ?_
              rw [List.cons_prefix_cons]
              refine ⟨rfl, ?_⟩
              have hmem : (splitSp (pySubP tm spaceRepl (some c) cs)).headI ∈
                  splitSp (pySubP tm spaceRepl (some c) cs) := by
                cases hs : splitSp (pySubP tm spaceRepl (some c) cs) with
                | nil => exact absurd hs (splitSp_ne_nil _)
                | cons a l => simp
              exact hrec.1
            · exact List.infix_cons (hrec.2 w (List.mem_of_mem_tail hw))

theorem pySub_words_inf {tm : Option Char → List Char → Option Nat} (t : List Char) :
    ∀ w ∈ pySplit (pySub tm spaceRepl t), w <:+: t := by
  intro w hw
  exact (pySub_splitSp_inf t.length t le_rfl none).2 w (List.mem_of_mem_filter hw)

/-! ### A nonempty non-whitespace infix lies inside a single word -/

theorem prefix_takeWhile {p : Char → Bool} :
    ∀ {w l : List Char}, w <+: l → (∀ c ∈ w, p c = true) → w <+: l.takeWhile p := by
  intro w
  induction w with
  | nil => intro l _ _; exact List.nil_prefix
  | cons a w' ih =>
    intro l hpre hall
    cases l with
    | nil => exact absurd (List.prefix_nil.mp hpre) (by simp)
    | cons b l' =>
      obtain ⟨rfl, hp⟩ := List.cons_prefix_cons.mp hpre
      rw [List.takeWhile_cons, if_pos (hall a (by simp)), List.cons_prefix_cons]
      exact ⟨rfl, ih hp (fun c hc => hall c (List.mem_cons_of_mem a hc))⟩

theorem infix_nonspace_in_word : ∀ (t w : List Char), w <:+: t → w ≠ [] →
    (∀ c ∈ w, isPySpace c = false) → ∃ x ∈ pySplit t, w <:+: x := by
  intro t
  induction t with
  | nil =>
    intro w hw hne _
    exact absurd (List.eq_nil_of_infix_nil hw) hne
  | cons c cs ih =>
    intro w hw hne hns
    rcases List.infix_cons_iff.mp hw with hpre | hinf
    · cases w with
      | nil => exact absurd rfl hne
      | cons a w' =>
        obtain ⟨rfl, hp⟩ := List.cons_prefix_cons.mp hpre
        have hc' : isPySpace a = false := hns a (by simp)
        refine ⟨a :: cs.takeWhile (fun c => !isPySpace c), ?_, ?_⟩
        · rw [pySplit_cons_nonspace cs hc']
          simp
        · refine List.IsPrefix.isInfix ?_
          rw [List.cons_prefix_cons]
          refine ⟨rfl, prefix_takeWhile hp ?_⟩
          intro c hc
          simp [hns c (List.mem_cons_of_mem a hc)]
    · obtain ⟨x, hx, hwx⟩ := ih w hinf hne hns
      by_cases hc : isPySpace c
      · exact ⟨x, by rw [pySplit_cons_space cs hc]; exact hx, hwx⟩
      · have hc' : isPySpace c = false := by simp [hc]
        cases cs with
        | nil => simp [pySplit_nil] at hx
        | cons d cs' =>
          by_cases hd : isPySpace d
          · rw [pySplit_cons_space cs' hd] at hx
            refine ⟨x, ?_, hwx⟩
            rw [pySplit_cons_nonspace (d :: cs') hc']
            have htw : (d :: cs').takeWhile (fun c => !isPySpace c) = [] := by
              rw [List.takeWhile_cons, if_neg (by simp [hd])]
            have hdw : (d :: cs').dropWhile (fun c => !isPySpace c) = d :: cs' := by
              rw [List.dropWhile_cons, if_neg (by simp [hd])]
            rw [htw, hdw, pySplit_cons_space cs' hd]
            exact List.mem_cons_of_mem _ hx
          · have hd' : isPySpace d = false := by simp [hd]
            rw [pySplit_cons_nonspace cs' hd'] at hx
            rw [pySplit_cons_nonspace (d :: cs') hc']
            have htw : (d :: cs').takeWhile (fun c => !isPySpace c) =
                d :: cs'.takeWhile (fun c => !isPySpace c) := by
              rw [List.takeWhile_cons, if_pos (by simp [hd'])]
            have hdw : (d :: cs').dropWhile (fun c => !isPySpace c) =
                cs'.dropWhile (fun c => !isPySpace c) := by
              rw [List.dropWhile_cons, if_pos (by simp [hd'])]
            rw [htw, hdw]
            rcases List.mem_cons.mp hx with rfl | hx
            · exact ⟨c :: d :: cs'.takeWhile (fun c => !isPySpace c), by simp,
                List.infix_cons hwx⟩
            · exact ⟨x, List.mem_cons_of_mem _ hx, hwx⟩

/-! ### No URL-pattern match survives the URL pass -/

theorem urlMatcher_prev_free (p₁ p₂ : Option Char) (l : List Char) :
    urlMatcher p₁ l = urlMatcher p₂ l := rfl

theorem nonSpaceLen_pos {l : List Char} (h : 1 ≤ nonSpaceLen l) :
    ∃ y ys, l = y :: ys ∧ isPySpace y = false := by
  cases l with
  | nil => simp [nonSpaceLen] at h
  | cons y ys =>
    by_cases hy : isPySpace y
    · unfold nonSpaceLen at h
      rw [List.takeWhile_cons, if_neg (by simp [hy])] at h
      simp at h
    · exact ⟨y, ys, rfl, by simp [hy]⟩

theorem nonSpaceLen_pos_of_head {y : Char} (ys : List Char) (h : isPySpace y = false) :
    1 ≤ nonSpaceLen (y :: ys) := by
  unfold nonSpaceLen
  rw [List.takeWhile_cons, if_pos (by simp [h])]
  simp

theorem urlMatcher_none_head {c : Char} (cs : List Char) (h1 : c ≠ 'h') (h2 : c ≠ 'w') :
    urlMatcher none (c :: cs) = none := by
  unfold urlMatcher
  rw [if_neg, if_neg]
  · rintro ⟨heq, -⟩
    rw [List.take_succ_cons] at heq
    have : wwwChars = 'w' :: "ww".toList := by decide
    rw [this] at heq
    exact h2 (List.cons.injEq _ _ _ _ ▸ heq).1
  · rintro ⟨heq, -⟩
    rw [List.take_succ_cons] at heq
    have : httpChars = 'h' :: "ttp".toList := by decide
    rw [this] at heq
    exact h1 (List.cons.injEq _ _ _ _ ▸ heq).1

theorem pySub_take_keep {tm : Option Char → List Char → Option Nat} :
    ∀ (n : Nat) (t : List Char), t.length ≤ n → ∀ (p : Option Char) (k : Nat),
      (∀ c ∈ (pySubP tm spaceRepl p t).take k, isPySpace c = false) →
      (pySubP tm spaceRepl p t).take k = t.take k := by
  intro n
  induction n with
  | zero =>
    intro t ht p k _
    cases t with
    | nil => rw [pySubP_nil]
    | cons c cs => simp at ht
  | succ n ih =>
    intro t ht p k hns
    cases t with
    | nil => rw [pySubP_nil]
    | cons c cs =>
      simp only [List.length_cons, Nat.succ_le_succ_iff] at ht
      cases hm : tm p (c :: cs) with
      | some m =>
        rw [pySubP_cons_some spaceRepl hm] at hns ⊢
        cases k with
        | zero => rfl
        | succ j =>
          exfalso
          have h0 : ' ' ∈ (spaceRepl ++
              pySubP tm spaceRepl ((c :: cs).take (m + 1)).getLast? (cs.drop m)).take (j + 1) := by
            show ' ' ∈ (' ' :: pySubP tm spaceRepl ((c :: cs).take (m + 1)).getLast?
              (cs.drop m)).take (j + 1)
            rw [List.take_succ_cons]
            exact List.mem_cons_self _ _
          exact absurd (hns ' ' h0) (by decide)
      | none =>
        rw [pySubP_cons_none spaceRepl hm] at hns ⊢
        cases k with
        | zero => rfl
        | succ j =>
          rw [List.take_succ_cons, List.take_succ_cons]
          congr 1
          refine ih cs ht (some c) j ?_
          intro x hx
          exact hns x (by rw [List.take_succ_cons]; exact List.mem_cons_of_mem c hx)

theorem urlMatcher_none_of_conds {l : List Char}
    (h1 : ¬(l.take 4 = httpChars ∧ 1 ≤ nonSpaceLen (l.drop 4)))
    (h2 : ¬(l.take 3 = wwwChars ∧ 1 ≤ nonSpaceLen (l.drop 3))) :
    urlMatcher none l = none := by
  unfold urlMatcher
  rw [if_neg h1, if_neg h2]

theorem urlFree_after_url_pass :
    ∀ (n : Nat) (t : List Char), t.length ≤ n → ∀ p,
      urlFree (pySubP urlMatcher spaceRepl p t) := by
  intro n
  induction n with
  | zero =>
    intro t ht p l hl
    cases t with
    | nil =>
      rw [pySubP_nil] at hl
      rw [List.suffix_nil.mp hl]
      decide
    | cons c cs => simp at ht
  | succ n ih =>
    intro t ht p l hl
    cases t with
    | nil =>
      rw [pySubP_nil] at hl
      rw [List.suffix_nil.mp hl]
      decide
    | cons c cs =>
      simp only [List.length_cons, Nat.succ_le_succ_iff] at ht
      cases hm : urlMatcher p (c :: cs) with
      | some m =>
        rw [pySubP_cons_some spaceRepl hm] at hl
        rcases List.suffix_cons_iff.mp hl with rfl | hl'
        · exact urlMatcher_none_head _ (by decide) (by decide)
        · exact ih (cs.drop m) (le_trans (List.length_drop m cs ▸ Nat.sub_le _ _) ht) _ l hl'
      | none =>
        rw [pySubP_cons_none spaceRepl hm] at hl
        rcases List.suffix_cons_iff.mp hl with rfl | hl'
        · by_contra hne
          have hh : httpChars = ['h', 't', 't', 'p'] := by decide
          have hw : wwwChars = ['w', 'w', 'w'] := by decide
          have hout : c :: pySubP urlMatcher spaceRepl (some c) cs =
              pySubP urlMatcher spaceRepl p (c :: cs) :=
            (pySubP_cons_none spaceRepl hm).symm
          by_cases hc1 : (c :: pySubP urlMatcher spaceRepl (some c) cs).take 4 = httpChars ∧
              1 ≤ nonSpaceLen ((c :: pySubP urlMatcher spaceRepl (some c) cs).drop 4)
          · obtain ⟨y, ys, hdrop, hy⟩ := nonSpaceLen_pos hc1.2
            have h5 : (c :: pySubP urlMatcher spaceRepl (some c) cs).take 5 =
                httpChars ++ [y] := by
              rw [show (5 : Nat) = 4 + 1 from rfl, List.take_add, hc1.1, hdrop]
              rfl
            have hns5 : ∀ x ∈ (pySubP urlMatcher spaceRepl p (c :: cs)).take 5,
                isPySpace x = false := by
              rw [← hout, h5]
              intro x hx
              rcases List.mem_append.mp hx with hx | hx
              · rw [hh] at hx
                fin_cases hx <;> decide
              · rw [List.mem_singleton.mp hx]
                exact hy
            have hkeep : (pySubP urlMatcher spaceRepl p (c :: cs)).take 5 =
                (c :: cs).take 5 :=
              pySub_take_keep (n + 1) (c :: cs) (by simp [Nat.succ_le_succ ht]) p 5 hns5
            have ht5 : (c :: cs).take 5 = httpChars ++ [y] := by
              rw [← hkeep, ← hout, h5]
            have hT : (c :: cs) = 'h' :: 't' :: 't' :: 'p' :: y :: (c :: cs).drop 5 := by
              conv_lhs => rw [← List.take_append_drop 5 (c :: cs)]
              rw [ht5, hh]
              rfl
            have hcontra : urlMatcher p (c :: cs) ≠ none := by
              rw [hT]
              unfold urlMatcher
              rw [if_pos ⟨by rw [hh]; rfl, nonSpaceLen_pos_of_head _ hy⟩]
              simp
            exact hcontra hm
          · by_cases hc2 : (c :: pySubP urlMatcher spaceRepl (some c) cs).take 3 = wwwChars ∧
                1 ≤ nonSpaceLen ((c :: pySubP urlMatcher spaceRepl (some c) cs).drop 3)
            · obtain ⟨y, ys, hdrop, hy⟩ := nonSpaceLen_pos hc2.2
              have h4 : (c :: pySubP urlMatcher spaceRepl (some c) cs).take 4 =
                  wwwChars ++ [y] := by
                rw [show (4 : Nat) = 3 + 1 from rfl, List.take_add, hc2.1, hdrop]
                rfl
              have hns4 : ∀ x ∈ (pySubP urlMatcher spaceRepl p (c :: cs)).take 4,
                  isPySpace x = false := by
                rw [← hout, h4]
                intro x hx
                rcases List.mem_append.mp hx with hx | hx
                · rw [hw] at hx
                  fin_cases hx <;> decide
                · rw [List.mem_singleton.mp hx]
                  exact hy
              have hkeep : (pySubP urlMatcher spaceRepl p (c :: cs)).take 4 =
                  (c :: cs).take 4 :=
                pySub_take_keep (n + 1) (c :: cs) (by simp [Nat.succ_le_succ ht]) p 4 hns4
              have ht4 : (c :: cs).take 4 = wwwChars ++ [y] := by
                rw [← hkeep, ← hout, h4]
              have hT : (c :: cs) = 'w' :: 'w' :: 'w' :: y :: (c :: cs).drop 4 := by
                conv_lhs => rw [← List.take_append_drop 4 (c :: cs)]
                rw [ht4, hw]
                rfl
              have hcontra : urlMatcher p (c :: cs) ≠ none := by
                rw [hT]
                unfold urlMatcher
                rw [if_neg, if_pos ⟨by rw [hw]; rfl, nonSpaceLen_pos_of_head _ hy⟩]
                · simp
                · rintro ⟨heq, -⟩
                  rw [hh] at heq
                  injection heq with hinj _
                  exact absurd hinj (by decide)
              exact hcontra hm
            · exact hne (urlMatcher_none_of_conds hc1 hc2)
        · exact ih cs ht (some c) l hl'

theorem url_suffix_none {v u : List Char} (hv : urlFree v)
    (hwords : ∀ x ∈ pySplit u, x <:+: v) :
    ∀ (p : Option Char) (l : List Char), l <:+ u → urlMatcher p l = none := by
  intro p l hsuf
  rw [urlMatcher_prev_free p none]
  by_contra hne
  have hh : httpChars = ['h', 't', 't', 'p'] := by decide
  have hw : wwwChars = ['w', 'w', 'w'] := by decide
  by_cases hc1 : l.take 4 = httpChars ∧ 1 ≤ nonSpaceLen (l.drop 4)
  · obtain ⟨y, ys, hdrop, hy⟩ := nonSpaceLen_pos hc1.2
    have h5 : l.take 5 = httpChars ++ [y] := by
      rw [show (5 : Nat) = 4 + 1 from rfl, List.take_add, hc1.1, hdrop]
      rfl
    have hinf : (httpChars ++ [y]) <:+: u := by
      rw [← h5]
      exact (List.take_prefix 5 l).isInfix.trans hsuf.isInfix
    have hns : ∀ c ∈ httpChars ++ [y], isPySpace c = false := by
      intro c hc
      rcases List.mem_append.mp hc with hc | hc
      · rw [hh] at hc
        fin_cases hc <;> decide
      · rw [List.mem_singleton.mp hc]
        exact hy
    obtain ⟨x, hx, hwx⟩ := infix_nonspace_in_word u _ hinf (by simp) hns
    obtain ⟨a₀, b₀, hveq⟩ := hwx.trans (hwords x hx)
    have hsufv : (httpChars ++ [y] ++ b₀) <:+ v := by
      refine ⟨a₀, ?_⟩
      rw [← hveq]
      simp [List.append_assoc]
    have hvnone := hv _ hsufv
    have hcon : urlMatcher none (httpChars ++ [y] ++ b₀) ≠ none := by
      rw [hh]
      show urlMatcher none ('h' :: 't' :: 't' :: 'p' :: y :: b₀) ≠ none
      unfold urlMatcher
      rw [if_pos ⟨by rw [hh]; rfl, nonSpaceLen_pos_of_head _ hy⟩]
      simp
    exact hcon hvnone
  · by_cases hc2 : l.take 3 = wwwChars ∧ 1 ≤ nonSpaceLen (l.drop 3)
    · obtain ⟨y, ys, hdrop, hy⟩ := nonSpaceLen_pos hc2.2
      have h4 : l.take 4 = wwwChars ++ [y] := by
        rw [show (4 : Nat) = 3 + 1 from rfl, List.take_add, hc2.1, hdrop]
        rfl
      have hinf : (wwwChars ++ [y]) <:+: u := by
        rw [← h4]
        exact (List.take_prefix 4 l).isInfix.trans hsuf.isInfix
      have hns : ∀ c ∈ wwwChars ++ [y], isPySpace c = false := by
        intro c hc
        rcases List.mem_append.mp hc with hc | hc
        · rw [hw] at hc
          fin_cases hc <;> decide
        · rw [List.mem_singleton.mp hc]
          exact hy
      obtain ⟨x, hx, hwx⟩ := infix_nonspace_in_word u _ hinf (by simp) hns
      obtain ⟨a₀, b₀, hveq⟩ := hwx.trans (hwords x hx)
      have hsufv : (wwwChars ++ [y] ++ b₀) <:+ v := by
        refine ⟨a₀, ?_⟩
        rw [← hveq]
        simp [List.append_assoc]
      have hvnone := hv _ hsufv
      have hcon : urlMatcher none (wwwChars ++ [y] ++ b₀) ≠ none := by
        rw [hw]
        show urlMatcher none ('w' :: 'w' :: 'w' :: y :: b₀) ≠ none
        unfold urlMatcher
        rw [if_neg, if_pos ⟨by rw [hw]; rfl, nonSpaceLen_pos_of_head _ hy⟩]
        · simp
        · rintro ⟨heq, -⟩
          rw [hh] at heq
          injection heq with hinj _
          exact absurd hinj (by decide)
      exact hcon hvnone
    · exact hne (urlMatcher_none_of_conds hc1 hc2)

/-! ### The leakage passes: shape of the patterns -/

theorem goodPatB_head {w : List Char} (h : goodPatB w = true) :
    ∃ c0 w', w = c0 :: w' ∧ isLowerAZ c0 = true := by
  cases w with
  | nil => exact absurd h (by decide)
  | cons c0 w' =>
    refine ⟨c0, w', rfl, ?_⟩
    simp only [goodPatB, Bool.and_eq_true] at h
    exact h.1.1

theorem goodPatB_last {w : List Char} (h : goodPatB w = true) :
    ∃ cl, w.getLast? = some cl ∧ isLowerAZ cl = true := by
  simp only [goodPatB, Bool.and_eq_true] at h
  obtain ⟨⟨-, h2⟩, -⟩ := h
  cases hg : w.getLast? with
  | none =>
    rw [hg] at h2
    exact absurd h2 (by decide)
  | some cl =>
    rw [hg] at h2
    exact ⟨cl, rfl, h2⟩

theorem goodPatB_chars {w : List Char} (h : goodPatB w = true) :
    ∀ c ∈ w, isLowerAZ c = true ∨ c = ' ' := by
  simp only [goodPatB, Bool.and_eq_true] at h
  intro c hc
  have := List.all_eq_true.mp h.2 c hc
  rw [Bool.or_eq_true, beq_iff_eq] at this
  exact this

theorem map_toLower_fix {m : List Char} (h : ∀ c ∈ m, isLowerAZ c = true ∨ c = ' ') :
    m.map Char.toLower = m := by
  induction m with
  | nil => rfl
  | cons a m' ih =>
    rw [List.map_cons, ih (fun c hc => h c (List.mem_cons_of_mem a hc))]
    rcases h a (by simp) with ha | ha
    · rw [toLower_of_lower ha]
    · rw [ha, show Char.toLower ' ' = ' ' from by decide]

theorem ciLit_space_head {w : List Char} (cs : List Char) (hgp : goodPatB w = true) :
    ciLit w (' ' :: cs) = false := by
  obtain ⟨c0, w', rfl, hc0⟩ := goodPatB_head hgp
  show ((Char.toLower ' ' == c0) && ciLit w' cs) = false
  have hb : (Char.toLower ' ' == c0) = false := by
    rw [beq_eq_false_iff_ne]
    intro h
    rw [show Char.toLower ' ' = ' ' from by decide] at h
    rw [← h] at hc0
    exact absurd hc0 (by decide)
  rw [hb, Bool.false_and]

theorem leakMatcher_none_word {w : List Char} {p : Option Char} (l : List Char)
    (h : wordBefore p = true) : leakMatcher w p l = none := by
  unfold leakMatcher
  rw [if_pos h]

theorem leakMatcher_eq_some {w : List Char} {p : Option Char} {l : List Char}
    (h1 : wordBefore p = false) (h2 : ciLit w l = true)
    (h3 : boundaryAfter (l.drop w.length) = true) :
    leakMatcher w p l = some (w.length - 1) := by
  unfold leakMatcher
  rw [if_neg (by simp [h1]), if_pos (by rw [h2, h3]; rfl)]

theorem leakMatcher_some_inv {w : List Char} {p : Option Char} {l : List Char} {k : Nat}
    (h : leakMatcher w p l = some k) :
    wordBefore p = false ∧ ciLit w l = true ∧
      boundaryAfter (l.drop w.length) = true ∧ k = w.length - 1 := by
  unfold leakMatcher at h
  by_cases h1 : wordBefore p = true
  · rw [if_pos h1] at h
    exact absurd h (by simp)
  · rw [if_neg h1] at h
    have h1' : wordBefore p = false := by
      cases hb : wordBefore p
      · rfl
      · exact absurd hb h1
    by_cases h2 : (ciLit w l && boundaryAfter (l.drop w.length)) = true
    · rw [if_pos h2] at h
      rw [Bool.and_eq_true] at h2
      exact ⟨h1', h2.1, h2.2, (Option.some_inj.mp h).symm⟩
    · rw [if_neg h2] at h
      exact absurd h (by simp)

theorem skipTail_nil (w : List Char) : skipTail w [] = [] := rfl

theorem skipTail_cons (w : List Char) (d : Char) (r : List Char) :
    skipTail w (d :: r) = d :: pySubP (leakMatcher w) [] (some d) r := rfl

theorem leak_skip_word {w : List Char} :
    ∀ (l : List Char) (p : Option Char), wordBefore p = true → wordly l →
      pySubP (leakMatcher w) [] p l =
        l.takeWhile isLowerAZ ++ skipTail w (l.dropWhile isLowerAZ) := by
  intro l
  induction l with
  | nil => intro p _ _; rfl
  | cons a cs ih =>
    intro p hp hl
    rw [pySubP_cons_none [] (leakMatcher_none_word (a :: cs) hp)]
    rcases hl a (by simp) with ha | ha
    · have hword : wordBefore (some a) = true := wordChar_of_lower ha
      rw [ih (some a) hword (fun c hc => hl c (List.mem_cons_of_mem a hc))]
      rw [List.takeWhile_cons, if_pos ha, List.dropWhile_cons, if_pos ha, List.cons_append]
    · subst ha
      rw [List.takeWhile_cons, if_neg (by decide), List.dropWhile_cons, if_neg (by decide)]
      rfl

theorem word_mem_pySplit {A b B : List Char} (hb : b ≠ [])
    (hbl : ∀ c ∈ b, isPySpace c = false)
    (hA : A = [] ∨ ∃ E, A = E ++ [' ']) (hB : B = [] ∨ ∃ F, B = ' ' :: F) :
    b ∈ pySplit (A ++ b ++ B) := by
  have hmem : ∀ (A' : List Char), (A' = [] ∨ ∃ E, A' = E ++ [' ']) →
      b ∈ pySplit (A' ++ b) := by
    intro A' hA'
    rcases hA' with rfl | ⟨E, rfl⟩
    · rw [List.nil_append, pySplit_all_nonspace hb hbl]
      simp
    · rw [List.append_assoc, show [' '] ++ b = ' ' :: b from rfl,
        pySplit_append_space (by decide) E b, pySplit_all_nonspace hb hbl]
      simp
  rcases hB with rfl | ⟨F, rfl⟩
  · rw [List.append_nil]
    exact hmem A hA
  · rw [pySplit_append_space (by decide) (A ++ b) F]
    exact List.mem_append.mpr (Or.inl (hmem A hA))

/-! ### Identity of a pass with no match anywhere, tracking the previous
character (for the boundary-sensitive leakage matcher) -/

theorem pySubP_id_prev {tm : Option Char → List Char → Option Nat} {r : List Char} :
    ∀ (n : Nat) (t : List Char), t.length ≤ n → ∀ p,
      (∀ (a l : List Char), t = a ++ l → l ≠ [] → tm (prevOf p a) l = none) →
      pySubP tm r p t = t := by
  intro n
  induction n with
  | zero =>
    intro t ht p _
    cases t with
    | nil => rfl
    | cons c cs => simp at ht
  | succ n ih =>
    intro t ht p hno
    cases t with
    | nil => rfl
    | cons c cs =>
      simp only [List.length_cons, Nat.succ_le_succ_iff] at ht
      have h0 : tm p (c :: cs) = none := hno [] (c :: cs) rfl (by simp)
      rw [pySubP_cons_none r h0]
      congr 1
      apply ih cs ht (some c)
      intro a l hal hl
      have h2 : prevOf p (c :: a) = prevOf (some c) a := by
        cases a with
        | nil => rfl
        | cons b bs =>
          show prevOf p (c :: b :: bs) = prevOf (some c) (b :: bs)
          unfold prevOf
          rw [List.getLast?_cons_cons]
          cases hg : (b :: bs).getLast? with
          | none => exact absurd hg (by simp)
          | some d => rfl
      rw [← h2]
      exact hno (c :: a) l (by rw [hal]; rfl) hl

/-! ### No leakage pattern matches inside a lowercase letters-and-spaces
text that lacks the pattern's single-word core -/

theorem leakMatcher_none_of_nice {w pre b post : List Char}
    (hw : w = pre ++ b ++ post)
    (hpre : pre = [] ∨ ∃ E, pre = E ++ [' '])
    (hpost : post = [] ∨ ∃ F, post = ' ' :: F)
    (hb : b ≠ []) (hbl : ∀ c ∈ b, isLowerAZ c = true)
    {u : List Char} (hu : wordly u) (hnb : b ∉ pySplit u) :
    ∀ (a l : List Char), u = a ++ l → l ≠ [] → leakMatcher w (prevOf none a) l = none := by
  intro a l hal hl
  by_cases hwb : wordBefore (prevOf none a) = true
  · exact leakMatcher_none_word l hwb
  · cases hm : leakMatcher w (prevOf none a) l with
    | none => rfl
    | some k =>
      exfalso
      obtain ⟨-, hci, hba, -⟩ := leakMatcher_some_inv hm
      obtain ⟨m, rest, hlm, hmap⟩ := (ciLit_iff w l).mp hci
      have hmw : m = w := by
        rw [← hmap]
        refine (map_toLower_fix ?_).symm
        intro c hc
        refine hu c ?_
        rw [hal, hlm]
        simp [hc]
      rw [hmw] at hlm
      rw [hlm, List.drop_left] at hba
      have hA : a ++ pre = [] ∨ ∃ E, a ++ pre = E ++ [' '] := by
        rcases hpre with rfl | ⟨E, rfl⟩
        · rw [List.append_nil]
          rcases List.eq_nil_or_concat a with rfl | ⟨a', c, rfl⟩
          · exact Or.inl rfl
          · have hpc : prevOf none (a'.concat c) = some c := by
              rw [List.concat_eq_append]
              unfold prevOf
              rw [List.getLast?_concat]
            rw [hpc] at hwb
            have hcw : isWordChar c = false := by
              cases hx : isWordChar c
              · rfl
              · exact absurd hx hwb
            have hcu : c ∈ u := by
              rw [hal]
              exact List.mem_append.mpr (Or.inl (by simp))
            have hcsp : c = ' ' := by
              rcases hu c hcu with hcl | hcs
              · rw [wordChar_of_lower hcl] at hcw
                exact absurd hcw (by simp)
              · exact hcs
            exact Or.inr ⟨a', by rw [List.concat_eq_append, hcsp]⟩
        · exact Or.inr ⟨a ++ E, by rw [← List.append_assoc]⟩
      have hB : post ++ rest = [] ∨ ∃ F, post ++ rest = ' ' :: F := by
        rcases hpost with rfl | ⟨F, rfl⟩
        · rw [List.nil_append]
          cases rest with
          | nil => exact Or.inl rfl
          | cons e r =>
            refine Or.inr ⟨r, ?_⟩
            have hba' : (!isWordChar e) = true := hba
            have hew : isWordChar e = false := by
              cases hx : isWordChar e
              · rfl
              · rw [hx] at hba'
                exact absurd hba' (by decide)
            have heu : e ∈ u := by
              rw [hal, hlm]
              simp
            rcases hu e heu with hel | hes
            · rw [wordChar_of_lower hel] at hew
              exact absurd hew (by simp)
            · rw [hes]
        · exact Or.inr ⟨F ++ rest, rfl⟩
      have hueq : u = (a ++ pre) ++ b ++ (post ++ rest) := by
        rw [hal, hlm, hw]
        simp [List.append_assoc]
      refine hnb ?_
      rw [hueq]
      exact word_mem_pySplit hb (fun c hc => not_space_of_lower (hbl c hc)) hA hB

/-! ### Words surviving one leakage pass -/

theorem leak_pass_words {w : List Char} (hgp : goodPatB w = true) :
    ∀ (n : Nat) (l : List Char), l.length ≤ n → ∀ p, wordBefore p = false → wordly l →
      (∀ x ∈ pySplit (pySubP (leakMatcher w) [] p l), x ∈ pySplit l) ∧
      ((∀ c ∈ w, isLowerAZ c = true) →
        ∀ x ∈ pySplit (pySubP (leakMatcher w) [] p l), x ≠ w) := by
  intro n
  induction n with
  | zero =>
    intro l hlen p hp hl
    cases l with
    | nil =>
      refine ⟨fun x hx => hx, fun _ x hx => ?_⟩
      rw [pySubP_nil, pySplit_nil] at hx
      exact absurd hx (by simp)
    | cons c cs => simp at hlen
  | succ n ih =>
    intro l hlen p hp hl
    cases l with
    | nil =>
      refine ⟨fun x hx => hx, fun _ x hx => ?_⟩
      rw [pySubP_nil, pySplit_nil] at hx
      exact absurd hx (by simp)
    | cons a cs =>
      simp only [List.length_cons, Nat.succ_le_succ_iff] at hlen
      have hlcs : wordly cs := fun c hc => hl c (List.mem_cons_of_mem a hc)
      rcases hl a (by simp) with ha | ha
      · cases hm : leakMatcher w p (a :: cs) with
        | some k =>
          obtain ⟨-, hci, hba, hk⟩ := leakMatcher_some_inv hm
          obtain ⟨m, rest, hlm, hmap⟩ := (ciLit_iff w _).mp hci
          have hmw : m = w := by
            rw [← hmap]
            refine (map_toLower_fix ?_).symm
            intro c hc
            exact hl c (by rw [hlm]; simp [hc])
          rw [hmw] at hlm
          obtain ⟨c0, w', hw0, hc0⟩ := goodPatB_head hgp
          have hk1 : k + 1 = w.length := by
            have hwl : 1 ≤ w.length := by rw [hw0]; simp
            omega
          rw [pySubP_cons_some [] hm, List.nil_append]
          have hdrop : cs.drop k = rest := by
            have h1 : (a :: cs).drop (k + 1) = cs.drop k := rfl
            rw [← h1, hk1, hlm, List.drop_left]
          obtain ⟨cl, hcl, hcll⟩ := goodPatB_last hgp
          have hprevw : wordBefore (((a :: cs).take (k + 1)).getLast?) = true := by
            rw [hk1, hlm, List.take_left, hcl]
            exact wordChar_of_lower hcll
          rw [hdrop]
          rw [hlm, List.drop_left] at hba
          cases hrest : rest with
          | nil =>
            rw [pySubP_nil, pySplit_nil]
            exact ⟨fun x hx => absurd hx (by simp), fun _ x hx => absurd hx (by simp)⟩
          | cons e r =>
            rw [hrest] at hba hdrop hlm
            have hew : isWordChar e = false := by
              have hba' : (!isWordChar e) = true := hba
              cases hx : isWordChar e
              · rfl
              · rw [hx] at hba'
                exact absurd hba' (by decide)
            have hesp : e = ' ' := by
              have hecs : e ∈ cs := List.mem_of_mem_drop (by rw [hdrop]; simp)
              rcases hlcs e hecs with hel | hes
              · rw [wordChar_of_lower hel] at hew
                exact absurd hew (by simp)
              · exact hes
            rw [hesp]
            rw [hesp] at hlm
            have hrlen : r.length ≤ n := by
              have h1 : (' ' :: r).length ≤ cs.length := by
                rw [← hesp, ← hdrop]
                exact (List.length_drop k cs).le.trans (Nat.sub_le _ _)
              simp at h1
              omega
            have hlr : wordly r := by
              intro c hc
              have hcd : c ∈ List.drop k cs := by
                rw [hdrop]
                simp [hc]
              exact hlcs c (List.mem_of_mem_drop hcd)
            have hIH := ih r hrlen (some ' ') (by decide) hlr
            have hprw : wordBefore (some ' ') = true → False := by decide
            rw [pySubP_cons_none [] (leakMatcher_none_word _ hprevw)]
            constructor
            · intro x hx
              rw [pySplit_cons_space _ (show isPySpace ' ' = true by decide)] at hx
              have hxr := hIH.1 x hx
              rw [hlm, pySplit_append_space (show isPySpace ' ' = true by decide)]
              exact List.mem_append.mpr (Or.inr hxr)
            · intro hall x hx
              rw [pySplit_cons_space _ (show isPySpace ' ' = true by decide)] at hx
              exact hIH.2 hall x hx
        | none =>
          rw [pySubP_cons_none [] hm]
          have hwa : wordBefore (some a) = true := wordChar_of_lower ha
          rw [leak_skip_word cs (some a) hwa hlcs]
          rcases dropWhile_head_cases isLowerAZ cs with hdw | ⟨d, r, hdw, hd⟩
          · have hcseq : cs = cs.takeWhile isLowerAZ := by
              conv_lhs => rw [← List.takeWhile_append_dropWhile isLowerAZ cs]
              rw [hdw, List.append_nil]
            rw [hdw, skipTail_nil, List.append_nil, ← hcseq]
            have hletters : ∀ c ∈ a :: cs, isLowerAZ c = true := by
              intro c hc
              rcases List.mem_cons.mp hc with rfl | hc
              · exact ha
              · rw [hcseq] at hc
                exact List.mem_takeWhile_imp hc
            have hallcs : ∀ c ∈ a :: cs, isPySpace c = false :=
              fun c hc => not_space_of_lower (hletters c hc)
            refine ⟨fun x hx => hx, ?_⟩
            intro hall x hx
            rw [pySplit_all_nonspace (by simp) hallcs] at hx
            have hxl : x = a :: cs := by simpa using hx
            intro hxw
            rw [hxl] at hxw
            have hciw : ciLit w (a :: cs) = true := by
              apply (ciLit_iff w (a :: cs)).mpr
              exact ⟨a :: cs, [], by simp,
                by rw [map_toLower_fix (fun c hc => Or.inl (hletters c hc)), hxw]⟩
            have hbd : boundaryAfter ((a :: cs).drop w.length) = true := by
              rw [← hxw, List.drop_length]
              rfl
            exact absurd (leakMatcher_eq_some hp hciw hbd) (by rw [hm]; simp)
          · have hdsp : d = ' ' := by
              have hdcs : d ∈ cs := (List.dropWhile_suffix isLowerAZ).subset (by rw [hdw]; simp)
              rcases hlcs d hdcs with hdl | hds
              · rw [hdl] at hd
                exact absurd hd (by simp)
              · exact hds
            have hcseq : a :: cs = (a :: cs.takeWhile isLowerAZ) ++ ' ' :: r := by
              have h1 : cs = cs.takeWhile isLowerAZ ++ ' ' :: r := by
                conv_lhs => rw [← List.takeWhile_append_dropWhile isLowerAZ cs]
                rw [hdw, hdsp]
              rw [List.cons_append, ← h1]
            rw [hdw, hdsp, skipTail_cons]
            have htwl : ∀ c ∈ a :: cs.takeWhile isLowerAZ, isLowerAZ c = true := by
              intro c hc
              rcases List.mem_cons.mp hc with rfl | hc
              · exact ha
              · exact List.mem_takeWhile_imp hc
            have htwns : ∀ c ∈ a :: cs.takeWhile isLowerAZ, isPySpace c = false :=
              fun c hc => not_space_of_lower (htwl c hc)
            have hrlen : r.length ≤ n := by
              have h1 : cs.length = (cs.takeWhile isLowerAZ).length + (' ' :: r).length := by
                conv_lhs => rw [← List.takeWhile_append_dropWhile isLowerAZ cs]
                rw [hdw, hdsp, List.length_append]
              simp at h1
              omega
            have hlr : wordly r := by
              intro c hc
              refine hlcs c ?_
              have h1 : cs = cs.takeWhile isLowerAZ ++ ' ' :: r := by
                conv_lhs => rw [← List.takeWhile_append_dropWhile isLowerAZ cs]
                rw [hdw, hdsp]
              rw [h1]
              simp [hc]
            have hIH := ih r hrlen (some ' ') (by decide) hlr
            constructor
            · intro x hx
              rw [← List.cons_append,
                pySplit_append_space (show isPySpace ' ' = true by decide)] at hx
              rw [hcseq, pySplit_append_space (show isPySpace ' ' = true by decide)]
              rcases List.mem_append.mp hx with hx1 | hx2
              · exact List.mem_append.mpr (Or.inl hx1)
              · exact List.mem_append.mpr (Or.inr (hIH.1 x hx2))
            · intro hall x hx
              rw [← List.cons_append,
                pySplit_append_space (show isPySpace ' ' = true by decide)] at hx
              rcases List.mem_append.mp hx with hx1 | hx2
              · rw [pySplit_all_nonspace (by simp) htwns] at hx1
                have hxl : x = a :: cs.takeWhile isLowerAZ := by simpa using hx1
                intro hxw
                rw [hxl] at hxw
                have hciw : ciLit w (a :: cs) = true := by
                  apply (ciLit_iff w (a :: cs)).mpr
                  refine ⟨a :: cs.takeWhile isLowerAZ, ' ' :: r, hcseq, ?_⟩
                  rw [map_toLower_fix (fun c hc => Or.inl (htwl c hc)), hxw]
                have hbd : boundaryAfter ((a :: cs).drop w.length) = true := by
                  rw [hcseq, ← hxw, List.drop_left]
                  rfl
                exact absurd (leakMatcher_eq_some hp hciw hbd) (by rw [hm]; simp)
              · exact hIH.2 hall x hx2
      · subst ha
        have hm : leakMatcher w p (' ' :: cs) = none := by
          unfold leakMatcher
          rw [if_neg (by simp [hp]), ciLit_space_head cs hgp, Bool.false_and]
          rfl
        rw [pySubP_cons_none [] hm]
        have hIH := ih cs hlen (some ' ') (by decide) hlcs
        constructor
        · intro x hx
          rw [pySplit_cons_space _ (show isPySpace ' ' = true by decide)] at hx
          rw [pySplit_cons_space _ (show isPySpace ' ' = true by decide)]
          exact hIH.1 x hx
        · intro hall x hx
          rw [pySplit_cons_space _ (show isPySpace ' ' = true by decide)] at hx
          exact hIH.2 hall x hx

/-! ### Lifting to `leakPass` and the fold over the phrase list -/

theorem leakPass_words_sub {w t : List Char} (hgp : goodPatB w = true) (ht : wordly t) :
    ∀ x ∈ pySplit (leakPass t w), x ∈ pySplit t :=
  (leak_pass_words hgp t.length t le_rfl none (by decide) ht).1

theorem leakPass_words_ne {w t : List Char} (hgp : goodPatB w = true) (ht : wordly t)
    (hall : ∀ c ∈ w, isLowerAZ c = true) :
    ∀ x ∈ pySplit (leakPass t w), x ≠ w :=
  (leak_pass_words hgp t.length t le_rfl none (by decide) ht).2 hall

theorem leakPass_wordly {t w : List Char} (ht : wordly t) : wordly (leakPass t w) :=
  fun c hc => ht c (leakPass_mem hc)

theorem foldl_leakPass_sub : ∀ (ws : List (List Char)),
    (∀ w ∈ ws, goodPatB w = true) → ∀ (t : List Char), wordly t →
    ∀ x ∈ pySplit (ws.foldl leakPass t), x ∈ pySplit t
  | [], _, _, _, _, hx => hx
  | w :: ws', hws, t, ht, x, hx => by
    have h1 := foldl_leakPass_sub ws' (fun v hv => hws v (List.mem_cons_of_mem w hv))
      (leakPass t w) (leakPass_wordly ht) x hx
    exact leakPass_words_sub (hws w (by simp)) ht x h1

theorem foldl_leakPass_ne : ∀ (ws : List (List Char)),
    (∀ w ∈ ws, goodPatB w = true) → ∀ (t : List Char), wordly t →
    ∀ (b : List Char), b ∈ ws → (∀ c ∈ b, isLowerAZ c = true) →
    ∀ x ∈ pySplit (ws.foldl leakPass t), x ≠ b
  | [], _, _, _, b, hb, _, _, _ => absurd hb (by simp)
  | w :: ws', hws, t, ht, b, hb, hbl, x, hx => by
    rcases List.mem_cons.mp hb with rfl | hb'
    · have h1 := foldl_leakPass_sub ws' (fun v hv => hws v (List.mem_cons_of_mem b hv))
        (leakPass t b) (leakPass_wordly ht) x hx
      exact leakPass_words_ne (hws b (by simp)) ht hbl x h1
    · exact foldl_leakPass_ne ws' (fun v hv => hws v (List.mem_cons_of_mem w hv))
        (leakPass t w) (leakPass_wordly ht) b hb' hbl x hx

theorem leakPass_id_of_nice (pre b post : List Char) {w u : List Char}
    (hw : w = pre ++ b ++ post)
    (hpre : pre = [] ∨ ∃ E, pre = E ++ [' '])
    (hpost : post = [] ∨ ∃ F, post = ' ' :: F)
    (hb : b ≠ []) (hbl : ∀ c ∈ b, isLowerAZ c = true)
    (hu : wordly u) (hnb : b ∉ pySplit u) :
    leakPass u w = u :=
  pySubP_id_prev u.length u le_rfl none
    (leakMatcher_none_of_nice hw hpre hpost hb hbl hu hnb)

theorem foldl_leakPass_id : ∀ (ws : List (List Char)) (u : List Char),
    (∀ w ∈ ws, leakPass u w = u) → ws.foldl leakPass u = u
  | [], _, _ => rfl
  | w :: ws', u, h => by
    show List.foldl leakPass (leakPass u w) ws' = u
    rw [h w (by simp)]
    exact foldl_leakPass_id ws' u (fun v hv => h v (List.mem_cons_of_mem w hv))

theorem leakPass_id_all {u : List Char} (hu : wordly u)
    (habs : ∀ b ∈ badWords, b ∉ pySplit u) :
    ∀ w ∈ leakage_words, leakPass u w = u := by
  intro w hw
  have hlw : leakage_words =
      [r"reuters".toList, r"washington reuters".toList, r"getty".toList,
       r"getty images".toList, r"image".toList, r"featured image".toList,
       r"featured".toList, r"twitter".toList, r"twitter com".toList,
       r"breitbart".toList, r"pic twitter".toList, r"said".toList,
       r"mr".toList, r"ms".toList] := by decide
  rw [hlw] at hw
  simp only [List.mem_cons, List.not_mem_nil, or_false] at hw
  rcases hw with rfl|rfl|rfl|rfl|rfl|rfl|rfl|rfl|rfl|rfl|rfl|rfl|rfl|rfl
  · exact leakPass_id_of_nice [] (r"reuters".toList) [] (by decide) (Or.inl rfl)
      (Or.inl rfl) (by decide) (by decide) hu (habs _ (by decide))
  · exact leakPass_id_of_nice (r"washington ".toList) (r"reuters".toList) [] (by decide)
      (Or.inr ⟨r"washington".toList, by decide⟩) (Or.inl rfl) (by decide) (by decide) hu
      (habs _ (by decide))
  · exact leakPass_id_of_nice [] (r"getty".toList) [] (by decide) (Or.inl rfl)
      (Or.inl rfl) (by decide) (by decide) hu (habs _ (by decide))
  · exact leakPass_id_of_nice [] (r"getty".toList) (r" images".toList) (by decide)
      (Or.inl rfl) (Or.inr ⟨r"images".toList, by decide⟩) (by decide) (by decide) hu
      (habs _ (by decide))
  · exact leakPass_id_of_nice [] (r"image".toList) [] (by decide) (Or.inl rfl)
      (Or.inl rfl) (by decide) (by decide) hu (habs _ (by decide))
  · exact leakPass_id_of_nice (r"featured ".toList) (r"image".toList) [] (by decide)
      (Or.inr ⟨r"featured".toList, by decide⟩) (Or.inl rfl) (by decide) (by decide) hu
      (habs _ (by decide))
  · exact leakPass_id_of_nice [] (r"featured".toList) [] (by decide) (Or.inl rfl)
      (Or.inl rfl) (by decide) (by decide) hu (habs _ (by decide))
  · exact leakPass_id_of_nice [] (r"twitter".toList) [] (by decide) (Or.inl rfl)
      (Or.inl rfl) (by decide) (by decide) hu (habs _ (by decide))
  · exact leakPass_id_of_nice [] (r"twitter".toList) (r" com".toList) (by decide)
      (Or.inl rfl) (Or.inr ⟨r"com".toList, by decide⟩) (by decide) (by decide) hu
      (habs _ (by decide))
  · exact leakPass_id_of_nice [] (r"breitbart".toList) [] (by decide) (Or.inl rfl)
      (Or.inl rfl) (by decide) (by decide) hu (habs _ (by decide))
  · exact leakPass_id_of_nice (r"pic ".toList) (r"twitter".toList) [] (by decide)
      (Or.inr ⟨r"pic".toList, by decide⟩) (Or.inl rfl) (by decide) (by decide) hu
      (habs _ (by decide))
  · exact leakPass_id_of_nice [] (r"said".toList) [] (by decide) (Or.inl rfl)
      (Or.inl rfl) (by decide) (by decide) hu (habs _ (by decide))
  · exact leakPass_id_of_nice [] (r"mr".toList) [] (by decide) (Or.inl rfl)
      (Or.inl rfl) (by decide) (by decide) hu (habs _ (by decide))
  · exact leakPass_id_of_nice [] (r"ms".toList) [] (by decide) (Or.inl rfl)
      (Or.inl rfl) (by decide) (by decide) hu (habs _ (by decide))

/-! ### Each pipeline stage fixes an already-normalized text -/

theorem isNormalized_parts {u : List Char} (h : isNormalized u = true) :
    u = joinSp (pySplit u) ∧ ∀ w ∈ pySplit u, ∀ c ∈ w, isLowerAZ c = true := by
  unfold isNormalized at h
  rw [Bool.and_eq_true] at h
  refine ⟨of_decide_eq_true h.1, fun w hw c hc => ?_⟩
  exact List.all_eq_true.mp (List.all_eq_true.mp h.2 w hw) c hc

theorem wordly_of_isNormalized {u : List Char} (h : isNormalized u = true) : wordly u := by
  intro c hc
  rw [(isNormalized_parts h).1] at hc
  exact joinSp_chars (isNormalized_parts h).2 c hc

theorem htmlMatcher_none_head {c : Char} (cs : List Char) (h : c ≠ '<') (p : Option Char) :
    htmlMatcher p (c :: cs) = none := by
  show (if c = '<' then (htmlEndIdx cs).map (· + 1) else none) = none
  rw [if_neg h]

theorem nonAlphaMatcher_none_head {c : Char} (cs : List Char)
    (h : (isAZ c || isPySpace c) = true) (p : Option Char) :
    nonAlphaMatcher p (c :: cs) = none := by
  show (if isAZ c || isPySpace c then none else some 0) = none
  rw [if_pos h]

theorem html_id_of_wordly {u : List Char} (hu : wordly u) :
    pySub htmlMatcher spaceRepl u = u := by
  apply pySub_id_of_no_match
  intro p l hl hsuf
  cases l with
  | nil => exact absurd rfl hl
  | cons c cs =>
    have hcu : c ∈ u := hsuf.subset (by simp)
    have hcne : c ≠ '<' := by
      rcases hu c hcu with h | h
      · exact lower_ne_char h (by decide)
      · rw [h]; decide
    exact htmlMatcher_none_head cs hcne p

theorem nonalpha_id_of_wordly {u : List Char} (hu : wordly u) :
    pySub nonAlphaMatcher spaceRepl u = u := by
  apply pySub_id_of_no_match
  intro p l hl hsuf
  cases l with
  | nil => exact absurd rfl hl
  | cons c cs =>
    have hcu : c ∈ u := hsuf.subset (by simp)
    have hok : (isAZ c || isPySpace c) = true := by
      rcases hu c hcu with h | h
      · have h1 : isAZ c = true := by simp [isAZ, h]
        simp [h1]
      · rw [h]; decide
    exact nonAlphaMatcher_none_head cs hok p

theorem basic_clean_fix {u : List Char} (hn : isNormalized u = true)
    (hurl : ∀ (p : Option Char) (l : List Char), l ≠ [] → l.IsSuffix u → urlMatcher p l = none) :
    basic_clean u = u := by
  have hw : wordly u := wordly_of_isNormalized hn
  show stripPy (pySub wsMatcher spaceRepl (pySub nonAlphaMatcher spaceRepl
      (pySub htmlMatcher spaceRepl (pySub urlMatcher spaceRepl (u.map Char.toLower))))) = u
  rw [map_toLower_fix hw, pySub_id_of_no_match hurl, html_id_of_wordly hw,
    nonalpha_id_of_wordly hw, stripPy_pySub_ws]
  exact ((isNormalized_parts hn).1).symm

theorem remove_stopwords_fix {S : List (List Char)} {u : List Char}
    (hn : isNormalized u = true) (hS : ∀ x ∈ pySplit u, x ∉ S) :
    remove_stopwords S u = u := by
  unfold remove_stopwords
  by_cases hu : u.isEmpty
  · rw [if_pos hu]
    exact (List.isEmpty_iff.mp hu).symm
  · rw [if_neg hu]
    have hfilter : (pySplit u).filter (fun w => decide (w ∉ S)) = pySplit u := by
      apply List.filter_eq_self.mpr
      intro a ha
      exact decide_eq_true (hS a ha)
    rw [hfilter]
    exact ((isNormalized_parts hn).1).symm

theorem remove_leakage_words_fix {u : List Char} (hn : isNormalized u = true)
    (habs : ∀ b ∈ badWords, b ∉ pySplit u) (hune : u ≠ []) :
    remove_leakage_words u = u := by
  have hw : wordly u := wordly_of_isNormalized hn
  have hcit : citationStrip u = u := by
    apply citationStrip_no_paren
    intro c hc
    rcases hw c hc with h | h
    · exact lower_ne_char h (by decide)
    · rw [h]; decide
  have hfold : leakage_words.foldl leakPass u = u :=
    foldl_leakPass_id leakage_words u (leakPass_id_all hw habs)
  rw [remove_leakage_words_eq_join hune, hcit, hfold]
  exact ((isNormalized_parts hn).1).symm

/-! ### The words of the pipeline output, traced back through the stages -/

theorem pySplit_joinSp_pySplit (t : List Char) : pySplit (joinSp (pySplit t)) = pySplit t :=
  pySplit_joinSp (pySplit t)
    (fun _ hw => ⟨(pySplit_mem hw).1, fun c hc => ((pySplit_mem hw).2 c hc).2⟩)

theorem rlw_words_sub (S : List (List Char)) (s : List Char)
    (hv : remove_stopwords S (basic_clean s) ≠ []) :
    ∀ x ∈ pySplit (remove_leakage_words (remove_stopwords S (basic_clean s))),
      x ∈ (pySplit (cleanStage4 s)).filter (fun w => decide (w ∉ S)) := by
  intro x hx
  rw [remove_leakage_words_eq_join hv, citationStrip_rs_bc, pySplit_joinSp_pySplit] at hx
  have hwv : wordly (remove_stopwords S (basic_clean s)) := fun c hc => rs_bc_chars S s c hc
  have h1 := foldl_leakPass_sub leakage_words (by decide) _ hwv x hx
  rw [rs_bc_eq_join] at h1
  rw [pySplit_joinSp _ (fun w hw => basic_clean_words_sp s w (List.mem_of_mem_filter hw))] at h1
  exact h1

theorem rlw_badWords_absent (S : List (List Char)) (s : List Char)
    (hv : remove_stopwords S (basic_clean s) ≠ []) :
    ∀ b ∈ badWords,
      b ∉ pySplit (remove_leakage_words (remove_stopwords S (basic_clean s))) := by
  intro b hb hbx
  rw [remove_leakage_words_eq_join hv, citationStrip_rs_bc, pySplit_joinSp_pySplit] at hbx
  have hwv : wordly (remove_stopwords S (basic_clean s)) := fun c hc => rs_bc_chars S s c hc
  have hbleak : b ∈ leakage_words := by fin_cases hb <;> decide
  have hblow : ∀ c ∈ b, isLowerAZ c = true := by fin_cases hb <;> decide
  exact foldl_leakPass_ne leakage_words (by decide) _ hwv b hbleak hblow b hbx rfl

theorem rlw_words_not_in (S : List (List Char)) (s : List Char)
    (hv : remove_stopwords S (basic_clean s) ≠ []) :
    ∀ x ∈ pySplit (remove_leakage_words (remove_stopwords S (basic_clean s))), x ∉ S := by
  intro x hx
  have h1 := rlw_words_sub S s hv x hx
  have h2 : decide (x ∉ S) = true := (List.mem_filter.mp h1).2
  exact of_decide_eq_true h2

theorem rlw_words_infix (S : List (List Char)) (s : List Char)
    (hv : remove_stopwords S (basic_clean s) ≠ []) :
    ∀ x ∈ pySplit (remove_leakage_words (remove_stopwords S (basic_clean s))),
      x <:+: cleanStage2 s := by
  intro x hx
  have h1 := List.mem_of_mem_filter (rlw_words_sub S s hv x hx)
  have h3 : x <:+: cleanStage3 s := pySub_words_inf (cleanStage3 s) x h1
  obtain ⟨hne, hns⟩ := basic_clean_words_sp s x h1
  obtain ⟨y, hy, hxy⟩ := infix_nonspace_in_word (cleanStage3 s) x h3 hne hns
  exact hxy.trans (pySub_words_inf (cleanStage2 s) y hy)

/-- C4: for every input `t`, `preprocess(preprocess(t)) == preprocess(t)`:
applying the full pipeline a second time to its own output leaves that
output unchanged (for every stopword set). -/
theorem claim_c4 (S : List (List Char)) (s : List Char) :
    preprocess_text S (preprocess_text S s) = preprocess_text S s := by
  by_cases hs : s.isEmpty = true
  · have h0 : preprocess_text S s = [] := by
      unfold preprocess_text
      rw [if_pos hs]
    rw [h0]
    unfold preprocess_text
    rw [if_pos (by decide)]
  · have hu : preprocess_text S s =
        remove_leakage_words (remove_stopwords S (basic_clean s)) := by
      unfold preprocess_text
      rw [if_neg hs]
    by_cases hv : remove_stopwords S (basic_clean s) = []
    · have h0 : preprocess_text S s = [] := by
        rw [hu, hv]
        unfold remove_leakage_words
        rw [if_pos (by decide)]
      rw [h0]
      unfold preprocess_text
      rw [if_pos (by decide)]
    · have hn : isNormalized (preprocess_text S s) = true := preprocess_text_normalized S s
      by_cases hue : preprocess_text S s = []
      · rw [hue]
        unfold preprocess_text
        rw [if_pos (by decide)]
      · set u := preprocess_text S s with hudef
        have hnotempty : ¬(u.isEmpty = true) := by
          simp only [List.isEmpty_iff]
          exact hue
        have hurl : ∀ (p : Option Char) (l : List Char), l ≠ [] →
            l.IsSuffix u → urlMatcher p l = none := by
          intro p l _ hsuf
          refine url_suffix_none (urlFree_after_url_pass (s.map Char.toLower).length
            (s.map Char.toLower) le_rfl none) ?_ p l hsuf
          intro x hx
          rw [hu] at hx
          exact rlw_words_infix S s hv x hx
        have hbc : basic_clean u = u := basic_clean_fix hn hurl
        have hrs : remove_stopwords S u = u := by
          refine remove_stopwords_fix hn ?_
          intro x hx
          rw [hu] at hx
          exact rlw_words_not_in S s hv x hx
        have hrl : remove_leakage_words u = u := by
          refine remove_leakage_words_fix hn ?_ hue
          intro b hb hbx
          rw [hu] at hbx
          exact rlw_badWords_absent S s hv b hb hbx
        have hstep : preprocess_text S u =
            remove_leakage_words (remove_stopwords S (basic_clean u)) := by
          unfold preprocess_text
          rw [if_neg hnotempty]
        rw [hstep, hbc, hrs, hrl]
